import Mathlib

/-!
Verification development for the hierarchical data accessor `Data`
(file `src/Data.js` of the repository).  The JavaScript value space is
embedded shallowly: objects are insertion-ordered association lists,
arrays are lists of optional elements (a `none` is a hole, as produced
by JavaScript's `delete` on an array index) together with their
non-index string properties.  Machine-level aspects that the accessor
code never relies on (prototype-inherited properties such as `length`,
`toString` or array methods, getters, symbols, and key reordering for
integer-like keys beyond 2^32-2) are outside the model and noted where
relevant.  Fallible operations (strict-mode assignment to a primitive,
`in` applied to a primitive, property access on `null`, calling
`.shift()` on the `null` returned by a failed `String.match`, and the
explicit `Invalid path` error) are modelled with `Except`.
-/

/-- JavaScript values as manipulated by `src/Data.js`: `undefined`, `null`,
primitives, insertion-ordered objects, and arrays (element slots, where
`none` is a hole, plus non-index string properties). -/
inductive JSVal where
  | undef
  | null
  | bool (b : Bool)
  | num (n : Int)
  | str (s : String)
  | obj (fields : List (String × JSVal))
  | arr (elems : List (Option JSVal)) (props : List (String × JSVal))

/-- Errors the accessor can raise: a strict-mode/`in`/member-access
`TypeError`, or the explicit `Invalid path` error thrown by `set`/`delete`. -/
inductive JSErr where
  | typeError
  | invalidPath
deriving DecidableEq, Repr

/-- Test for `typeof v === 'object'`; in JavaScript this is true for plain
objects, for arrays and for `null`. -/
def isObjectType : JSVal → Bool
  | .obj _ => true
  | .arr _ _ => true
  | .null => true
  | _ => false

/-- Test for `Array.isArray(v)`. -/
def isArrB : JSVal → Bool
  | .arr _ _ => true
  | _ => false

/-- Test for the value `undefined`. -/
def isUndefB : JSVal → Bool
  | .undef => true
  | _ => false

/-- Whitespace skipped by JavaScript's `parseInt` (the common ASCII cases). -/
def isJsSpace (c : Char) : Bool :=
  c = ' ' || c = '\t' || c = '\n' || c = '\r' || c = '\x0b' || c = '\x0c'

/-- Hexadecimal digit test. -/
def isHexDigitB (c : Char) : Bool :=
  c.isDigit || ('a' ≤ c && c ≤ 'f') || ('A' ≤ c && c ≤ 'F')

/-- Removal of the optional leading sign accepted by `parseInt`. -/
def stripSign : List Char → List Char
  | '+' :: r => r
  | '-' :: r => r
  | t => t

/-- Classification of the remaining characters by `parseInt`: `NaN` exactly
when no digit can be consumed, with the `0x`/`0X` hexadecimal prefix handled
as in the ECMAScript specification. -/
def headNaN : List Char → Bool
  | [] => true
  | '0' :: 'x' :: r =>
      match r with
      | c :: _ => !isHexDigitB c
      | [] => true
  | '0' :: 'X' :: r =>
      match r with
      | c :: _ => !isHexDigitB c
      | [] => true
  | c :: _ => !c.isDigit

/-- Model of `isNaN(parseInt(s))`: skip leading whitespace and an optional
sign, then test whether a digit can be consumed. -/
def jsParseIntNaN (s : String) : Bool :=
  headNaN (stripSign (s.data.dropWhile isJsSpace))

/-- Numeric value of a list of decimal digits. -/
def digitsToNat (cs : List Char) : Nat :=
  cs.foldl (fun acc c => acc * 10 + (c.toNat - 48)) 0

/-- Canonical array-index test: a key string addresses an array element (and
is an integer-like key for property-ordering purposes) exactly when it is the
canonical decimal numeral of some `n < 2^32 - 1` (no sign, no leading zero). -/
def isCanonIdx (s : String) : Option Nat :=
  match s.data with
  | [] => none
  | c :: r =>
      if (c :: r).all Char.isDigit && (c ≠ '0' || r.isEmpty)
          && digitsToNat (c :: r) < 4294967295 then
        some (digitsToNat (c :: r))
      else none

/-- Own-property lookup in an association list (first match wins). -/
def jsFindProp : List (String × JSVal) → String → Option JSVal
  | [], _ => none
  | (k, v) :: rest, key => if k = key then some v else jsFindProp rest key

/-- Property assignment on an association list: overwrite in place, else
append (JavaScript objects keep the position of an existing key). -/
def jsSetProp : List (String × JSVal) → String → JSVal → List (String × JSVal)
  | [], key, v => [(key, v)]
  | (k, w) :: rest, key, v =>
      if k = key then (k, v) :: rest else (k, w) :: jsSetProp rest key v

/-- Property removal from an association list. -/
def jsRemoveProp : List (String × JSVal) → String → List (String × JSVal)
  | [], _ => []
  | (k, w) :: rest, key =>
      if k = key then rest else (k, w) :: jsRemoveProp rest key

/-- Array element read: out-of-range indices and holes give `undefined`. -/
def arrGet (elems : List (Option JSVal)) (n : Nat) : JSVal :=
  match elems.getD n none with
  | none => .undef
  | some v => v

/-- Array element write: in range it replaces the slot, past the end it
extends the array with holes (JavaScript `a[n] = v` for `n ≥ a.length`). -/
def arrWrite (elems : List (Option JSVal)) (n : Nat) (v : JSVal) :
    List (Option JSVal) :=
  if n < elems.length then elems.set n (some v)
  else elems ++ List.replicate (n - elems.length) none ++ [some v]

/-- Member access `v[key]` on object-typed non-null values (and on strings,
which index into their characters); primitives give `undefined`.  Inherited
properties (`length`, methods) are not modelled. -/
def jsIndexTotal : JSVal → String → JSVal
  | .obj fields, key => (jsFindProp fields key).getD .undef
  | .arr elems props, key =>
      match isCanonIdx key with
      | some n => arrGet elems n
      | none => (jsFindProp props key).getD .undef
  | .str s, key =>
      match isCanonIdx key with
      | some n =>
          match (s.data.drop n) with
          | c :: _ => .str (String.mk [c])
          | [] => .undef
      | none => .undef
  | _, _ => ( .undef)

/-- Member access `source[key]` as evaluated under a `typeof source ===
'object'` guard: on `null` it raises a `TypeError`, otherwise it reads the
own property. -/
def jsIndexE : JSVal → String → Except JSErr JSVal
  | .null, _ => .error .typeError
  | v, key => .ok (jsIndexTotal v key)

/-- The `key in source` test: own-key presence for objects (a key holding
`undefined` is still present), element- or property-presence for arrays
(a hole is absent); on primitives, `null` and `undefined` the `in` operator
raises a `TypeError`. -/
def jsInE : JSVal → String → Except JSErr Bool
  | .obj fields, key => .ok (jsFindProp fields key).isSome
  | .arr elems props, key =>
      .ok (match isCanonIdx key with
        | some n => (elems.getD n none).isSome
        | none => (jsFindProp props key).isSome)
  | _, _ => .error .typeError

/-- Strict-mode assignment `destination[key] = value`: objects and arrays
are updated, every other value (primitives, `null`, `undefined`) raises a
`TypeError`. -/
def jsWrite : JSVal → String → JSVal → Except JSErr JSVal
  | .obj fields, key, v => .ok (.obj (jsSetProp fields key v))
  | .arr elems props, key, v =>
      .ok (match isCanonIdx key with
        | some n => .arr (arrWrite elems n v) props
        | none => .arr elems (jsSetProp props key v))
  | _, _, _ => .error .typeError

/-- The `delete source[key]` statement on an object or array: removing an
array index leaves a hole and does not change the length. -/
def jsDeleteAt : JSVal → String → JSVal
  | .obj fields, key => .obj (jsRemoveProp fields key)
  | .arr elems props, key =>
      match isCanonIdx key with
      | some n => .arr (elems.set n none) props
      | none => .arr elems (jsRemoveProp props key)
  | v, _ => v

/-- Path-delimiter characters of the bracket-aware grammar. -/
def isPathDelim (c : Char) : Bool := c = '.' || c = '[' || c = ']'

/-- Splitting a character list at every delimiter, keeping empty pieces
(the behaviour of JavaScript `String.prototype.split`). -/
def splitOnPred (p : Char → Bool) : List Char → List (List Char)
  | [] => [[]]
  | c :: rest =>
      if p c then [] :: splitOnPred p rest
      else
        match splitOnPred p rest with
        | [] => [[c]]
        | run :: runs => (c :: run) :: runs

/-- Model of `path.split('.')` — the plain splitter used by `has`, `get` and
`delete`; note `"".split('.')` is `[""]`, never the empty list. -/
def jsSplitDot (s : String) : List String :=
  (splitOnPred (fun c => c = '.') s.data).map String.mk

/-- Model of `path.match(/[^.\x5b\x5d.]+/g)` as used by `set`: the maximal
runs of characters other than `.`, `[`, `]`; when there is no such run
JavaScript's `match` returns `null`, modelled as `none`. -/
def jsMatchSegs (s : String) : Option (List String) :=
  let runs := (splitOnPred isPathDelim s.data).filter (fun r => !r.isEmpty)
  if runs.isEmpty then none else some (runs.map String.mk)

/-- Data.has, on an already-split path.  `path.shift()` on the segment list
becomes structural recursion; `typeof source === 'object'` admits `null`, on
which the member access raises a `TypeError`. -/
def hasL : JSVal → List String → Except JSErr Bool
  | source, [] => .ok (!isUndefB source)
  | source, key :: rest =>
      if isObjectType source then do
        let v ← jsIndexE source key
        hasL v rest
      else .ok false

/-- Data.get, on an already-split path, with explicit fallback. -/
def getL : JSVal → List String → JSVal → Except JSErr JSVal
  | source, [], fallback => .ok (if isUndefB source then fallback else source)
  | source, key :: rest, fallback =>
      if isObjectType source then do
        let v ← jsIndexE source key
        getL v rest fallback
      else .ok fallback

/-- Data.set, on an already-split path, returning the updated destination.
An empty path raises the `Invalid path` error; a missing intermediate is
created as `[]` when the next segment survives `parseInt` and as `{}`
otherwise; the in-place mutation of `destination[key]` becomes a write-back. -/
def setL : JSVal → List String → JSVal → Except JSErr JSVal
  | _, [], _ => .error .invalidPath
  | dest, [key], v => jsWrite dest key v
  | dest, key :: next :: rest, v => do
      let present ← jsInE dest key
      let dest1 ←
        if present then pure dest
        else jsWrite dest key (if jsParseIntNaN next then .obj [] else .arr [] [])
      let child1 ← setL (jsIndexTotal dest1 key) (next :: rest) v
      jsWrite dest1 key child1

/-- Data.delete, on an already-split path, returning the removed value (or
`null` when the key is absent) together with the updated structure. -/
def deleteL : JSVal → List String → Except JSErr (JSVal × JSVal)
  | _, [] => .error .invalidPath
  | source, key :: rest => do
      let present ← jsInE source key
      if present then
        match rest with
        | [] => pure (jsIndexTotal source key, jsDeleteAt source key)
        | _ :: _ => do
            let (removed, child1) ← deleteL (jsIndexTotal source key) rest
            let source1 ← jsWrite source key child1
            pure (removed, source1)
      else pure (.null, source)

/-- Data.has on a string path: split strictly on `.`. -/
def hasS (source : JSVal) (path : String) : Except JSErr Bool :=
  hasL source (jsSplitDot path)

/-- Data.get on a string path: split strictly on `.`. -/
def getS (source : JSVal) (path : String) (fallback : JSVal) :
    Except JSErr JSVal :=
  getL source (jsSplitDot path) fallback

/-- Data.set on a string path: the bracket-aware matcher; when it matches
nothing, `path` is `null` and the following `path.shift()` raises a
`TypeError` (not the `Invalid path` error). -/
def setS (dest : JSVal) (path : String) (v : JSVal) : Except JSErr JSVal :=
  match jsMatchSegs path with
  | none => .error .typeError
  | some segs => setL dest segs v

/-- Data.delete on a string path: like `has`/`get` it splits on `.` only. -/
def deleteS (source : JSVal) (path : String) : Except JSErr (JSVal × JSVal) :=
  deleteL source (jsSplitDot path)

/-- Data.has with the leftover of the caller's segment array: the source
mutates the caller's array through `path.shift()`, so a later use of the
same array sees only the unconsumed tail. -/
def hasRem : JSVal → List String → Except JSErr (Bool × List String)
  | source, [] => .ok (!isUndefB source, [])
  | source, key :: rest =>
      if isObjectType source then do
        let v ← jsIndexE source key
        hasRem v rest
      else .ok (false, rest)

/-- Data.set with the leftover of the caller's segment array. -/
def setRem : JSVal → List String → JSVal → Except JSErr (JSVal × List String)
  | _, [], _ => .error .invalidPath
  | dest, [key], v => do
      let d ← jsWrite dest key v
      pure (d, [])
  | dest, key :: next :: rest, v => do
      let present ← jsInE dest key
      let dest1 ←
        if present then pure dest
        else jsWrite dest key (if jsParseIntNaN next then .obj [] else .arr [] [])
      let (child1, leftover) ← setRem (jsIndexTotal dest1 key) (next :: rest) v
      let d ← jsWrite dest1 key child1
      pure (d, leftover)

/-- Data.ensure on a string path: `has`, conditionally `set`, then `get`,
each re-parsing the same string, with `get`'s default fallback `null`. -/
def ensureS (dest : JSVal) (path : String) (fallback : JSVal) :
    Except JSErr (JSVal × JSVal) := do
  let present ← hasS dest path
  if present then do
    let r ← getS dest path .null
    pure (r, dest)
  else do
    let dest1 ← setS dest path fallback
    let r ← getS dest1 path .null
    pure (r, dest1)

/-- Data.ensure on an already-split path: the three calls share the caller's
array, which `has` (and `set`) destructively consume, so `set` and `get`
only see the leftover segments. -/
def ensureA (dest : JSVal) (path : List String) (fallback : JSVal) :
    Except JSErr (JSVal × JSVal) := do
  let (present, rest1) ← hasRem dest path
  if present then do
    let r ← getL dest rest1 .null
    pure (r, dest)
  else do
    let (dest1, rest2) ← setRem dest rest1 fallback
    let r ← getL dest1 rest2 .null
    pure (r, dest1)

/-- Insertion sort of integer-like keys by their numeric value, used to model
the `for...in` enumeration order. -/
def idxVal (kv : String × JSVal) : Nat := ((isCanonIdx kv.1).getD 0)

/-- Enumeration order of an object's own keys under `for...in`: integer-like
keys first in ascending numeric order, then the remaining keys in insertion
order. -/
def jsObjOrder (fields : List (String × JSVal)) : List (String × JSVal) :=
  (fields.filter (fun kv => (isCanonIdx kv.1).isSome)).insertionSort
      (fun a b => idxVal a ≤ idxVal b)
    ++ fields.filter (fun kv => !(isCanonIdx kv.1).isSome)

/-- Key/value pairs enumerated by `for (const key in source)` together with
`source[key]`: objects in the order above; arrays their present (non-hole)
elements by ascending index and then their string properties; strings their
characters; `null`, `undefined` and the remaining primitives enumerate
nothing.  Non-enumerable and inherited properties are not modelled. -/
def jsForInEntries : JSVal → List (String × JSVal)
  | .obj fields => jsObjOrder fields
  | .arr elems props =>
      (List.range elems.length).filterMap
        (fun i => (elems.getD i none).map (fun v => (toString i, v)))
      ++ props
  | .str s => (List.range s.data.length).filterMap
      (fun i => (s.data.drop i).head?.map
        (fun c => (toString i, JSVal.str (String.mk [c]))))
  | _ => []

theorem sizeOf_filter_le (p : (String × JSVal) → Bool)
    (l : List (String × JSVal)) : sizeOf (l.filter p) ≤ sizeOf l := by
  induction l with
  | nil => simp
  | cons kv rest ih =>
      by_cases h : p kv
      · simp [List.filter_cons, h]
        omega
      · simp [List.filter_cons, h]
        omega

theorem sizeOf_perm_eq {l₁ l₂ : List (String × JSVal)}
    (h : List.Perm l₁ l₂) : sizeOf l₁ = sizeOf l₂ := by
  induction h with
  | nil => rfl
  | cons x _ ih => simp [ih]
  | swap x y l => simp; omega
  | trans _ _ ih₁ ih₂ => omega

theorem sizeOf_append_list (a b : List (String × JSVal)) :
    sizeOf (a ++ b) = sizeOf a + sizeOf b - 1 := by
  induction a with
  | nil => simp
  | cons kv rest ih =>
      simp [List.cons_append, ih]
      have : 1 ≤ sizeOf rest + sizeOf b := by
        cases rest <;> cases b <;> simp <;> omega
      omega

theorem sizeOf_jsObjOrder (fields : List (String × JSVal)) :
    sizeOf (jsObjOrder fields) = sizeOf fields := by
  unfold jsObjOrder
  have h₁ := sizeOf_perm_eq
    (List.perm_insertionSort (fun a b => idxVal a ≤ idxVal b)
      (fields.filter (fun kv => (isCanonIdx kv.1).isSome)))
  have h₅ := sizeOf_perm_eq
    (List.filter_append_perm (fun kv => (isCanonIdx kv.1).isSome) fields)
  rw [sizeOf_append_list] at h₅ ⊢
  rw [h₁]
  have hb : 1 ≤ sizeOf (fields.filter (fun kv => !(isCanonIdx kv.1).isSome)) := by
    cases h : fields.filter (fun kv => !(isCanonIdx kv.1).isSome) <;> simp <;> omega
  omega

/-- One piece of `Data.getPathString`: a piece that survives `parseInt` is
rendered as `[piece]`, any other as `.piece`. -/
def pathPiece (piece : String) : String :=
  if jsParseIntNaN piece then "." ++ piece else "[" ++ piece ++ "]"

/-- Concatenation of a list of strings (the `stringPath.join('')` step). -/
def joinAll : List String → String
  | [] => ""
  | s :: rest => s ++ joinAll rest

/-- Model of `.substring(1)`: drop the first character unconditionally
(all the characters produced here are ASCII, so one UTF-16 unit is one
character). -/
def jsSubstringFrom1 (s : String) : String := String.mk (s.data.drop 1)

/-- Data.getPathString: render each piece, join, then strip the first
character (intended to remove a leading `.`, applied even when the first
piece was rendered in bracket form). -/
def getPathString (path : List String) : String :=
  jsSubstringFrom1 (joinAll (path.map pathPiece))

mutual
/-- Inner recursion of `Data.walk`: iterate `for (const key in source)` and
either recurse (composites, with arrays only under `traverseArray`) or emit
the leaf with its segment path.  `null`, `undefined` and other primitives
enumerate no keys; a string enumerates its characters, which are emitted as
leaves. -/
def walkV (ta : Bool) : JSVal → List String → List (List String × JSVal)
  | .obj fields, path => walkFields ta (jsObjOrder fields) path
  | .arr elems props, path => walkElems ta elems 0 path ++ walkFields ta props path
  | .str s, path => walkStrChars s.data 0 path
  | _, _ => []
  termination_by v _ => 2 * sizeOf v + 1
  decreasing_by
    all_goals (try simp_wf)
    all_goals (try simp [sizeOf_jsObjOrder])
    all_goals omega

/-- Walk over the (already enumeration-ordered) fields of an object, or the
string properties of an array. -/
def walkFields (ta : Bool) : List (String × JSVal) → List String → List (List String × JSVal)
  | [], _ => []
  | (k, v) :: rest, path => walkEntry ta k v path ++ walkFields ta rest path
  termination_by l _ => 2 * sizeOf l
  decreasing_by
    all_goals (try simp_wf)
    all_goals (try simp [sizeOf_jsObjOrder])
    all_goals omega

/-- Walk over array element slots; holes are skipped by `for...in` but still
advance the index. -/
def walkElems (ta : Bool) : List (Option JSVal) → Nat → List String → List (List String × JSVal)
  | [], _, _ => []
  | none :: rest, i, path => walkElems ta rest (i + 1) path
  | some v :: rest, i, path => walkEntry ta (toString i) v path ++ walkElems ta rest (i + 1) path
  termination_by l _ _ => 2 * sizeOf l
  decreasing_by
    all_goals (try simp_wf)
    all_goals (try simp [sizeOf_jsObjOrder])
    all_goals omega

/-- Walk emission for the characters of a string source. -/
def walkStrChars : List Char → Nat → List String → List (List String × JSVal)
  | [], _, _ => []
  | c :: rest, i, path =>
      (path ++ [toString i], JSVal.str (String.mk [c])) :: walkStrChars rest (i + 1) path
  termination_by l _ _ => 2 * sizeOf l
  decreasing_by
    all_goals (try simp_wf)
    all_goals (try simp [sizeOf_jsObjOrder])
    all_goals omega

/-- One `for...in` iteration of `Data.walk`: recurse when the value is
object-typed (arrays only when `traverseArray` is set), else emit. -/
def walkEntry (ta : Bool) (k : String) (v : JSVal) (path : List String) :
    List (List String × JSVal) :=
  if isObjectType v && (ta || !isArrB v) then walkV ta v (path ++ [k])
  else [(path ++ [k], v)]
  termination_by 2 * sizeOf v + 2
  decreasing_by
    all_goals (try simp_wf)
    all_goals (try simp [sizeOf_jsObjOrder])
    all_goals omega
end

/-- The sequence of `callback(value, pathString)` invocations made by
`Data.walk(source, callback, traverseArray)`, in order. -/
def walkCalls (ta : Bool) (source : JSVal) : List (JSVal × String) :=
  (walkV ta source []).map (fun pv => (pv.2, getPathString pv.1))

/-- Data.flatten: walk with default `traverseArray = false`, assigning
`flatObject[path] = value` for every emitted leaf. -/
def flattenV (source : JSVal) : JSVal :=
  .obj ((walkCalls false source).foldl
    (fun acc vp => jsSetProp acc vp.2 vp.1) [])

/-- Data.hierarchize: `Data.set(object, key, flatObject[key])` for every
`for...in` key of the flat object, starting from `{}`. -/
def hierarchizeE (flat : JSVal) : Except JSErr JSVal :=
  (jsForInEntries flat).foldlM (fun acc kv => setS acc kv.1 kv.2) (.obj [])

/-- Strong induction along a natural-number measure, used for proofs about
the tree-recursive walker. -/
theorem measureInd {α : Sort _} (m : α → Nat) (P : α → Prop)
    (step : ∀ x, (∀ y, m y < m x → P y) → P x) : ∀ x, P x := by
  have H : ∀ n x, m x < n → P x := by
    intro n
    induction n with
    | zero => intro x h; omega
    | succ n ih => intro x _; exact step x (fun y hy => ih y (by omega))
  exact fun x => H (m x + 1) x (by omega)

/-- A scalar in the sense of the specification: a primitive that is neither
`null` nor `undefined` nor a composite. -/
def isScalarPrim : JSVal → Bool
  | .bool _ => true
  | .num _ => true
  | .str _ => true
  | _ => false

/-- The specification's reading of "the segment parses as a non-negative
integer": a non-empty string of decimal digits. -/
def nonNegIntStr (s : String) : Bool :=
  !s.data.isEmpty && s.data.all Char.isDigit

mutual
/-- Structures containing no `undefined` value in any object field, array
slot or array property (holes are fine, an explicit `undefined` is not). -/
def noUndefB : JSVal → Bool
  | .undef => false
  | .obj fields => noUndefFields fields
  | .arr elems props => noUndefElems elems && noUndefFields props
  | _ => true

/-- All field values satisfy `noUndefB`. -/
def noUndefFields : List (String × JSVal) → Bool
  | [] => true
  | (_, v) :: rest => noUndefB v && noUndefFields rest

/-- All present slots satisfy `noUndefB`. -/
def noUndefElems : List (Option JSVal) → Bool
  | [] => true
  | none :: rest => noUndefElems rest
  | some v :: rest => noUndefB v && noUndefElems rest
end

mutual
/-- Structures containing no `null` value in any object field, array slot
or array property. -/
def nullFreeB : JSVal → Bool
  | .null => false
  | .obj fields => nullFreeFields fields
  | .arr elems props => nullFreeElems elems && nullFreeFields props
  | _ => true

/-- All field values satisfy `nullFreeB`. -/
def nullFreeFields : List (String × JSVal) → Bool
  | [] => true
  | (_, v) :: rest => nullFreeB v && nullFreeFields rest

/-- All present slots satisfy `nullFreeB`. -/
def nullFreeElems : List (Option JSVal) → Bool
  | [] => true
  | none :: rest => nullFreeElems rest
  | some v :: rest => nullFreeB v && nullFreeElems rest
end

/-- Raw traversal of a structure along segments, reading own properties and
defaulting to `undefined`; used to state what `delete` returns. -/
def fetchTotal : JSVal → List String → JSVal
  | s, [] => s
  | s, k :: p => fetchTotal (jsIndexTotal s k) p

/-- Total version of the strict assignment, for stating results: on values
that reject assignment it returns the value unchanged. -/
def jsWriteTotal (s : JSVal) (k : String) (v : JSVal) : JSVal :=
  match jsWrite s k v with
  | .ok r => r
  | .error _ => s

/-- Removal of exactly the final key of a path, every other key untouched:
the intended effect of a successful `delete`. -/
def eraseAt : JSVal → List String → JSVal
  | s, [] => s
  | s, [k] => jsDeleteAt s k
  | s, k :: next :: rest => jsWriteTotal s k (eraseAt (jsIndexTotal s k) (next :: rest))

theorem splitOnPred_ne_nil (p : Char → Bool) (cs : List Char) :
    splitOnPred p cs ≠ [] := by
  induction cs with
  | nil => simp [splitOnPred]
  | cons c rest ih =>
      simp only [splitOnPred]
      by_cases h : p c
      · simp [h]
      · simp only [h, if_neg, Bool.false_eq_true, not_false_eq_true]
        cases hs : splitOnPred p rest with
        | nil => simp
        | cons run runs => simp

theorem jsSplitDot_ne_nil (s : String) : jsSplitDot s ≠ [] := by
  unfold jsSplitDot
  intro h
  exact splitOnPred_ne_nil _ _ (List.map_eq_nil.mp h)

/-- Claim C3 is false on the code: `delete` splits its string path on `.`
only, so `"a[0].b"` is addressed as the two segments `["a[0]", "b"]`, not as
`["a", "0", "b"]`, and on a structure holding both shapes `delete` removes
the value under the literal key `"a[0]"`. -/
theorem claim3_counterexample :
    deleteS (.obj [("a", .arr [some (.obj [("b", .num 5)])] []),
        ("a[0]", .obj [("b", .num 7)])]) "a[0].b"
      = .ok (.num 7, .obj [("a", .arr [some (.obj [("b", .num 5)])] []),
        ("a[0]", .obj [])])
    ∧ jsSplitDot "a[0].b" = ["a[0]", "b"]
    ∧ jsMatchSegs "a[0].b" = some ["a", "0", "b"]
    ∧ (["a[0]", "b"] : List String) ≠ ["a", "0", "b"]
    ∧ deleteS (.obj [("a", .arr [some (.obj [("b", .num 5)])] []),
        ("a[0]", .obj [("b", .num 7)])]) "a[0].b"
      ≠ deleteL (.obj [("a", .arr [some (.obj [("b", .num 5)])] []),
        ("a[0]", .obj [("b", .num 7)])]) ["a", "0", "b"] := by
  refine ⟨rfl, rfl, rfl, by simp, ?_⟩
  have h1 : deleteS (.obj [("a", .arr [some (.obj [("b", .num 5)])] []),
      ("a[0]", .obj [("b", .num 7)])]) "a[0].b"
      = .ok (.num 7, .obj [("a", .arr [some (.obj [("b", .num 5)])] []),
        ("a[0]", .obj [])]) := rfl
  have h2 : deleteL (.obj [("a", .arr [some (.obj [("b", .num 5)])] []),
      ("a[0]", .obj [("b", .num 7)])]) ["a", "0", "b"]
      = .ok (.num 5, .obj [("a", .arr [some (.obj [])] []),
        ("a[0]", .obj [("b", .num 7)])]) := rfl
  rw [h1, h2]
  simp

/-- Claim C3 amended: `delete` parses a single-string path with the plain
`.`-splitter, exactly as `has` and `get` do; only `set` uses the
bracket-aware matcher.  Thus `delete(s, "a[0].b")` addresses the segments
`["a[0]", "b"]` (while `set`'s matcher would yield `["a", "0", "b"]`). -/
theorem claim3_amended :
    (∀ (s : JSVal) (p : String), deleteS s p = deleteL s (jsSplitDot p))
    ∧ (∀ (s : JSVal) (p : String) (fb : JSVal),
        hasS s p = hasL s (jsSplitDot p) ∧ getS s p fb = getL s (jsSplitDot p) fb)
    ∧ jsSplitDot "a[0].b" = ["a[0]", "b"]
    ∧ jsMatchSegs "a[0].b" = some ["a", "0", "b"]
    ∧ deleteS (.obj [("a[0]", .obj [("b", .num 7)])]) "a[0].b"
      = .ok (.num 7, .obj [("a[0]", .obj [])]) :=
  ⟨fun _ _ => rfl, fun _ _ _ => ⟨rfl, rfl⟩, rfl, rfl, rfl⟩

/-- Claim C6 is false on the code: for the empty string — which parses to
zero segments under `set`'s matcher — `set` does not raise the
`Invalid path` error; `path.match` returns `null` and the subsequent
`null.shift()` raises a `TypeError`. -/
theorem claim6_counterexample :
    setS (.obj []) "" (.num 1) = .error .typeError
    ∧ jsMatchSegs "" = none
    ∧ JSErr.typeError ≠ JSErr.invalidPath :=
  ⟨rfl, rfl, by decide⟩

/-- Claim C6 amended: a pre-split path with zero segments makes both `set`
and `delete` raise the `Invalid path` error; but a string path with no
matchable segment (empty or all separators) makes `set` raise a `TypeError`
instead, and `delete`'s dot-splitter never produces zero segments from a
string, so string-form `delete` never reaches its `Invalid path` check. -/
theorem claim6_amended :
    (∀ (d v : JSVal), setL d [] v = .error .invalidPath)
    ∧ (∀ s : JSVal, deleteL s [] = .error .invalidPath)
    ∧ (∀ (d v : JSVal) (p : String), jsMatchSegs p = none →
        setS d p v = .error .typeError)
    ∧ jsMatchSegs "" = none ∧ jsMatchSegs "..." = none
    ∧ (∀ p : String, jsSplitDot p ≠ []) := by
  refine ⟨fun _ _ => rfl, fun _ => rfl, ?_, rfl, rfl, jsSplitDot_ne_nil⟩
  intro d v p h
  simp [setS, h]

/-- Witness for the hypothesis-bearing part of `claim6_amended` at the
concrete no-segment path `"..."`. -/
theorem claim6_witness :
    setS (.obj [("x", .num 2)]) "..." (.num 1) = .error .typeError :=
  claim6_amended.2.2.1 (.obj [("x", .num 2)]) (.num 1) "..." rfl

/-- Claim C4 is false on the code: when a scalar already occupies a
non-final path segment, `set` does not overwrite it with a composite — the
`key in destination` guard sees the key as present, `set` recurses into the
scalar, and the strict-mode assignment (or `in` test) on a primitive raises
a `TypeError`, so the `set` fails. -/
theorem claim4_counterexample :
    setS (.obj [("a", .num 1)]) "a.b" (.num 5) = .error .typeError
    ∧ setS (.obj [("a", .str "x")]) "a.b.c" (.num 5) = .error .typeError :=
  ⟨rfl, rfl⟩

/-- Claim C4 amended: `set` creates a fresh composite only when the segment
key is absent from the current container; if the key is present and holds a
scalar while segments remain, `set` raises a `TypeError` (strict-mode
property creation on a primitive / `in` applied to a primitive). -/
theorem claim4_amended (dest : JSVal) (k next : String) (rest : List String)
    (w v : JSVal) (h1 : jsInE dest k = .ok true) (h2 : jsIndexTotal dest k = w)
    (h3 : isScalarPrim w = true) :
    setL dest (k :: next :: rest) v = .error .typeError := by
  have hw : setL w (next :: rest) v = .error .typeError := by
    cases rest with
    | nil => cases w <;> simp_all [setL, jsWrite, isScalarPrim]
    | cons r rs =>
        cases w <;> simp_all [setL, jsInE, isScalarPrim] <;> rfl
  simp [setL, h1, h2, hw]
  rfl

/-- Witness for `claim4_amended`: the destination `{a: 1}` with path
`a.b`. -/
theorem claim4_witness :
    setL (.obj [("a", .num 1)]) ["a", "b"] (.num 5) = .error .typeError :=
  claim4_amended (.obj [("a", .num 1)]) "a" "b" [] (.num 1) (.num 5)
    rfl rfl rfl

@[simp] theorem ebind_ok {e : Type} {a b : Type} (x : a) (f : a → Except e b) :
    (do let y ← Except.ok x; f y) = f x := rfl

@[simp] theorem ebind_err {e : Type} {a b : Type} (err : e) (f : a → Except e b) :
    (do let y ← (Except.error err : Except e a); f y) = Except.error err := rfl

@[simp] theorem emap_ok {e : Type} {a b : Type} (x : a) (f : a → b) :
    (Except.ok x : Except e a).map f = Except.ok (f x) := rfl

@[simp] theorem emap_err {e : Type} {a b : Type} (err : e) (f : a → b) :
    (Except.error err : Except e a).map f = Except.error err := rfl

theorem jsFindProp_setProp_same (fields : List (String × JSVal)) (k : String)
    (v : JSVal) : jsFindProp (jsSetProp fields k v) k = some v := by
  induction fields with
  | nil => simp [jsSetProp, jsFindProp]
  | cons kv rest ih =>
      obtain ⟨k1, w⟩ := kv
      by_cases h : k1 = k
      · simp [jsSetProp, jsFindProp, h]
      · simp [jsSetProp, jsFindProp, h, ih]

theorem jsSetProp_absent (fields : List (String × JSVal)) (k : String)
    (v : JSVal) (h : jsFindProp fields k = none) :
    jsSetProp fields k v = fields ++ [(k, v)] := by
  induction fields with
  | nil => simp [jsSetProp]
  | cons kv rest ih =>
      obtain ⟨k1, w⟩ := kv
      by_cases hk : k1 = k
      · simp [jsFindProp, hk] at h
      · simp [jsFindProp, hk] at h
        simp [jsSetProp, hk, ih h]

theorem jsSetProp_twice (fields : List (String × JSVal)) (k : String)
    (v w : JSVal) : jsSetProp (jsSetProp fields k v) k w = jsSetProp fields k w := by
  induction fields with
  | nil => simp [jsSetProp]
  | cons kv rest ih =>
      obtain ⟨k1, u⟩ := kv
      by_cases h : k1 = k
      · simp [jsSetProp, h]
      · simp [jsSetProp, h, ih]

theorem isJsSpace_of_digit {c : Char} (hc : c.isDigit = true) :
    isJsSpace c = false := by
  by_cases e1 : c = ' '
  · subst e1; exact absurd hc (by decide)
  by_cases e2 : c = '\t'
  · subst e2; exact absurd hc (by decide)
  by_cases e3 : c = '\n'
  · subst e3; exact absurd hc (by decide)
  by_cases e4 : c = '\r'
  · subst e4; exact absurd hc (by decide)
  by_cases e5 : c = '\x0b'
  · subst e5; exact absurd hc (by decide)
  by_cases e6 : c = '\x0c'
  · subst e6; exact absurd hc (by decide)
  simp [isJsSpace, e1, e2, e3, e4, e5, e6]

theorem stripSign_ne (c : Char) (r : List Char) (h1 : c ≠ '+')
    (h2 : c ≠ '-') : stripSign (c :: r) = c :: r := by
  unfold stripSign
  split
  · rename_i heq
    rw [List.cons.injEq] at heq
    exact absurd heq.1 h1
  · rename_i heq
    rw [List.cons.injEq] at heq
    exact absurd heq.1 h2
  · rfl

theorem headNaN_digit (c : Char) (r : List Char) (hc : c.isDigit = true)
    (hr : ∀ x ∈ r, x.isDigit = true) : headNaN (c :: r) = false := by
  unfold headNaN
  split
  · rename_i heq
    exact absurd heq (by simp)
  · rename_i r1 heq
    rw [List.cons.injEq] at heq
    have : ('x' : Char).isDigit = true := hr 'x' (by rw [heq.2]; simp)
    exact absurd this (by decide)
  · rename_i r1 heq
    rw [List.cons.injEq] at heq
    have : ('X' : Char).isDigit = true := hr 'X' (by rw [heq.2]; simp)
    exact absurd this (by decide)
  · rename_i c1 t heq
    rw [List.cons.injEq] at heq
    rw [← heq.1, hc]
    rfl

theorem digits_not_parseIntNaN (s : String) (h : nonNegIntStr s = true) :
    jsParseIntNaN s = false := by
  obtain ⟨data⟩ := s
  simp only [nonNegIntStr, Bool.and_eq_true, Bool.not_eq_true',
    List.all_eq_true] at h
  obtain ⟨hne, hall⟩ := h
  cases data with
  | nil => simp at hne
  | cons c r =>
      have hc : c.isDigit = true := hall c (by simp)
      have hdw : List.dropWhile isJsSpace (c :: r) = c :: r := by
        rw [List.dropWhile_cons, isJsSpace_of_digit hc]
        simp
      unfold jsParseIntNaN
      have hdata : (String.mk (c :: r)).data = c :: r := rfl
      rw [hdata, hdw, stripSign_ne c r (by rintro rfl; exact absurd hc (by decide))
        (by rintro rfl; exact absurd hc (by decide))]
      exact headNaN_digit c r hc (fun x hx => hall x (by simp [hx]))

/-- Claim C7 is false as stated: the code's creation test is
`isNaN(parseInt(next))`, not "parses as a non-negative integer".  The
segment `"-1"` is not a non-negative integer, yet `parseInt("-1")` is `-1`,
so `set` creates a list for it (the subsequent assignment lands in the
array's string properties, as `"-1"` is not a canonical index). -/
theorem claim7_counterexample :
    nonNegIntStr "-1" = false
    ∧ jsParseIntNaN "-1" = false
    ∧ setL (.obj []) ["a", "-1"] (.num 5)
        = .ok (.obj [("a", .arr [] [("-1", .num 5)])])
    ∧ isArrB (.arr [] [("-1", .num 5)]) = true
    ∧ nonNegIntStr "1x" = false
    ∧ jsParseIntNaN "1x" = false
    ∧ setL (.obj []) ["a", "1x"] (.num 5)
        = .ok (.obj [("a", .arr [] [("1x", .num 5)])]) :=
  ⟨rfl, rfl, rfl, rfl, rfl, rfl, rfl⟩

/-- Claim C7 amended: when `set` must create a missing intermediate under an
absent key, it creates a list exactly when `parseInt` of the next segment is
not `NaN` (a digit can be consumed after optional whitespace, sign or `0x`
prefix) and a map otherwise; every non-empty all-digit segment does create a
list, and `set({}, "a.b.0.c", 5)` produces `{a:{b:[{c:5}]}}`. -/
theorem claim7_amended :
    (∀ (fields : List (String × JSVal)) (k next : String) (rest : List String)
        (v : JSVal), jsFindProp fields k = none →
        setL (.obj fields) (k :: next :: rest) v
          = (setL (if jsParseIntNaN next then .obj [] else .arr [] [])
              (next :: rest) v).map (fun c => .obj (fields ++ [(k, c)])))
    ∧ (∀ s : String, nonNegIntStr s = true → jsParseIntNaN s = false)
    ∧ setS (.obj []) "a.b.0.c" (.num 5)
        = .ok (.obj [("a", .obj [("b", .arr [some (.obj [("c", .num 5)])] [])])]) := by
  refine ⟨?_, digits_not_parseIntNaN, rfl⟩
  intro fields k next rest v h
  have hin : jsInE (.obj fields) k = .ok false := by simp [jsInE, h]
  have hidx : jsIndexTotal
      (.obj (jsSetProp fields k (if jsParseIntNaN next then .obj [] else .arr [] []))) k
      = (if jsParseIntNaN next then JSVal.obj [] else JSVal.arr [] []) := by
    simp [jsIndexTotal, jsFindProp_setProp_same]
  cases e : setL (if jsParseIntNaN next then .obj [] else .arr [] []) (next :: rest) v with
  | ok c =>
      simp only [setL, hin, ebind_ok, Bool.false_eq_true, if_false, jsWrite,
        hidx, e, jsSetProp_twice, emap_ok]
      rw [jsSetProp_absent fields k c h]
  | error err =>
      simp only [setL, hin, ebind_ok, Bool.false_eq_true, if_false, jsWrite,
        hidx, e, ebind_err, emap_err]

/-- Witness for `claim7_amended` at `set({}, ["a", "0"], 5)`, which creates
a list for the all-digit next segment `"0"`. -/
theorem claim7_witness :
    setL (.obj []) ["a", "0"] (.num 5)
      = (setL (.arr [] []) ["0"] (.num 5)).map (fun c => .obj [("a", c)])
    ∧ jsParseIntNaN "0" = false := by
  constructor
  · have h := claim7_amended.1 [] "a" "0" [] (.num 5) rfl
    rw [show (if jsParseIntNaN "0" then JSVal.obj [] else JSVal.arr [] []) = .arr [] [] from rfl] at h
    exact h
  · exact claim7_amended.2.1 "0" rfl

theorem perm_jsObjOrder (fields : List (String × JSVal)) :
    List.Perm (jsObjOrder fields) fields := by
  unfold jsObjOrder
  exact ((List.perm_insertionSort (fun a b => idxVal a ≤ idxVal b) _).append
    (List.Perm.refl _)).trans (List.filter_append_perm _ fields)

theorem mem_jsObjOrder {kv : String × JSVal} {fields : List (String × JSVal)} :
    kv ∈ jsObjOrder fields ↔ kv ∈ fields :=
  (perm_jsObjOrder fields).mem_iff

theorem sizeOf_lt_of_mem_fields {k : String} {v : JSVal}
    {fields : List (String × JSVal)} (h : (k, v) ∈ fields) :
    sizeOf v < sizeOf (JSVal.obj fields) := by
  induction fields with
  | nil => simp at h
  | cons kv rest ih =>
      rcases List.mem_cons.mp h with h1 | h1
      · subst h1; simp; omega
      · have := ih h1
        simp at this ⊢
        omega

theorem sizeOf_lt_of_mem_elems {v : JSVal} {elems : List (Option JSVal)}
    {props : List (String × JSVal)} (h : some v ∈ elems) :
    sizeOf v < sizeOf (JSVal.arr elems props) := by
  induction elems with
  | nil => simp at h
  | cons o rest ih =>
      rcases List.mem_cons.mp h with h1 | h1
      · subst h1; simp; omega
      · have := ih h1
        simp at this ⊢
        omega

theorem sizeOf_lt_of_mem_props {k : String} {v : JSVal}
    {elems : List (Option JSVal)} {props : List (String × JSVal)}
    (h : (k, v) ∈ props) : sizeOf v < sizeOf (JSVal.arr elems props) := by
  induction props with
  | nil => simp at h
  | cons kv rest ih =>
      rcases List.mem_cons.mp h with h1 | h1
      · subst h1; simp; omega
      · have := ih h1
        simp at this ⊢
        omega

theorem walkFields_mem {ta : Bool} {l : List (String × JSVal)}
    {path : List String} {pv : List String × JSVal}
    (h : pv ∈ walkFields ta l path) :
    ∃ k v, (k, v) ∈ l ∧ pv ∈ walkEntry ta k v path := by
  induction l with
  | nil => simp [walkFields] at h
  | cons kv rest ih =>
      obtain ⟨k, v⟩ := kv
      rw [show walkFields ta ((k, v) :: rest) path
        = walkEntry ta k v path ++ walkFields ta rest path from by
          simp [walkFields]] at h
      rcases List.mem_append.mp h with h1 | h1
      · exact ⟨k, v, by simp, h1⟩
      · obtain ⟨k1, v1, hm, he⟩ := ih h1
        exact ⟨k1, v1, by simp [hm], he⟩

theorem walkElems_mem {ta : Bool} {l : List (Option JSVal)} {i : Nat}
    {path : List String} {pv : List String × JSVal}
    (h : pv ∈ walkElems ta l i path) :
    ∃ (j : Nat) (v : JSVal), some v ∈ l ∧ pv ∈ walkEntry ta (toString j) v path := by
  induction l generalizing i with
  | nil => simp [walkElems] at h
  | cons o rest ih =>
      cases o with
      | none =>
          rw [show walkElems ta (none :: rest) i path
            = walkElems ta rest (i + 1) path from by simp [walkElems]] at h
          obtain ⟨j, v, hm, he⟩ := ih h
          exact ⟨j, v, by simp [hm], he⟩
      | some v =>
          rw [show walkElems ta (some v :: rest) i path
            = walkEntry ta (toString i) v path ++ walkElems ta rest (i + 1) path from by
              simp [walkElems]] at h
          rcases List.mem_append.mp h with h1 | h1
          · exact ⟨i, v, by simp, h1⟩
          · obtain ⟨j, v1, hm, he⟩ := ih h1
            exact ⟨j, v1, by simp [hm], he⟩

theorem walkStrChars_mem {cs : List Char} {i : Nat} {path : List String}
    {pv : List String × JSVal} (h : pv ∈ walkStrChars cs i path) :
    ∃ (c : Char) (j : Nat), pv = (path ++ [toString j], .str (String.mk [c])) := by
  induction cs generalizing i with
  | nil => simp [walkStrChars] at h
  | cons c rest ih =>
      rw [show walkStrChars (c :: rest) i path
        = (path ++ [toString i], JSVal.str (String.mk [c])) :: walkStrChars rest (i + 1) path
        from by simp [walkStrChars]] at h
      rcases List.mem_cons.mp h with h1 | h1
      · exact ⟨c, i, h1⟩
      · exact ih h1

/-- Values handed to the callback are exactly those the walker refuses to
recurse into: the guard `typeof value === 'object' && (traverseArray ||
!Array.isArray(value))` is false for every emitted value. -/
theorem walk_emits_only_leaves :
    ∀ (s : JSVal) (ta : Bool) (path : List String) (pv : List String × JSVal),
      pv ∈ walkV ta s path → (isObjectType pv.2 && (ta || !isArrB pv.2)) = false := by
  apply measureInd sizeOf
    (fun s => ∀ (ta : Bool) (path : List String) (pv : List String × JSVal),
      pv ∈ walkV ta s path → (isObjectType pv.2 && (ta || !isArrB pv.2)) = false)
  intro s IH ta path pv hmem
  have hentry : ∀ (k : String) (v : JSVal), sizeOf v < sizeOf s →
      pv ∈ walkEntry ta k v path →
      (isObjectType pv.2 && (ta || !isArrB pv.2)) = false := by
    intro k v hlt he
    by_cases hc : (isObjectType v && (ta || !isArrB v)) = true
    · rw [show walkEntry ta k v path = walkV ta v (path ++ [k]) from by
        simp [walkEntry, hc]] at he
      exact IH v hlt ta (path ++ [k]) pv he
    · rw [show walkEntry ta k v path = [(path ++ [k], v)] from by
        simp [walkEntry]
        intro h1 h2
        exact absurd (by simp [h1, h2]) hc] at he
      rw [List.mem_singleton.mp he]
      simpa using hc
  cases s with
  | obj fields =>
      rw [show walkV ta (.obj fields) path = walkFields ta (jsObjOrder fields) path
        from by simp [walkV]] at hmem
      obtain ⟨k, v, hm, he⟩ := walkFields_mem hmem
      exact hentry k v (sizeOf_lt_of_mem_fields (mem_jsObjOrder.mp hm)) he
  | arr elems props =>
      rw [show walkV ta (.arr elems props) path
        = walkElems ta elems 0 path ++ walkFields ta props path from by
          simp [walkV]] at hmem
      rcases List.mem_append.mp hmem with h1 | h1
      · obtain ⟨j, v, hm, he⟩ := walkElems_mem h1
        exact hentry (toString j) v (sizeOf_lt_of_mem_elems hm) he
      · obtain ⟨k, v, hm, he⟩ := walkFields_mem h1
        exact hentry k v (sizeOf_lt_of_mem_props hm) he
  | str s =>
      rw [show walkV ta (.str s) path = walkStrChars s.data 0 path from by
        simp [walkV]] at hmem
      obtain ⟨c, j, rfl⟩ := walkStrChars_mem hmem
      rfl
  | undef => simp [walkV] at hmem
  | null => simp [walkV] at hmem
  | bool b => simp [walkV] at hmem
  | num n => simp [walkV] at hmem

theorem walkV_arr12_false :
    walkV false (.arr [some (.num 1), some (.num 2)] []) []
      = [(["0"], .num 1), (["1"], .num 2)] := by
  simp [walkV, walkElems, walkFields, walkEntry, isObjectType, isArrB]
  decide

theorem walkV_arr12_true :
    walkV true (.arr [some (.num 1), some (.num 2)] []) []
      = [(["0"], .num 1), (["1"], .num 2)] := by
  simp [walkV, walkElems, walkFields, walkEntry, isObjectType, isArrB]
  decide

/-- Claim C2 is false on the code in both halves.  `walk` always iterates
the keys of the root, so `walk([1,2], cb, false)` invokes the callback twice
(once per element), not once with the whole list; and `getPathString`
unconditionally strips the first character of the joined path, so a leading
bracket segment is mangled: the paths are `"0]"`/`"1]"`, not
`"[0]"`/`"[1]"`. -/
theorem claim2_counterexample :
    (walkCalls false (.arr [some (.num 1), some (.num 2)] [])).length = 2
    ∧ (walkCalls false (.arr [some (.num 1), some (.num 2)] [])).length ≠ 1
    ∧ (walkCalls true (.arr [some (.num 1), some (.num 2)] [])).map Prod.snd
        = ["0]", "1]"]
    ∧ (walkCalls true (.arr [some (.num 1), some (.num 2)] [])).map Prod.snd
        ≠ ["[0]", "[1]"] := by
  have h0 : walkCalls false (.arr [some (.num 1), some (.num 2)] [])
      = [(.num 1, "0]"), (.num 2, "1]")] := by
    unfold walkCalls
    rw [walkV_arr12_false]
    rfl
  have h1 : walkCalls true (.arr [some (.num 1), some (.num 2)] [])
      = [(.num 1, "0]"), (.num 2, "1]")] := by
    unfold walkCalls
    rw [walkV_arr12_true]
    rfl
  rw [h0, h1]
  refine ⟨rfl, by simp, rfl, by simp⟩

/-- Claim C2 amended: `walk([1,2], cb, traverseArray)` invokes the callback
exactly twice for either value of `traverseArray` — the root's keys are
always iterated, and scalar elements are emitted either way — with values
`1`, `2` and path strings `"0]"`, `"1]"` (bracket form with the first
character stripped by `getPathString`). -/
theorem claim2_amended :
    walkCalls false (.arr [some (.num 1), some (.num 2)] [])
      = [(.num 1, "0]"), (.num 2, "1]")]
    ∧ walkCalls true (.arr [some (.num 1), some (.num 2)] [])
      = [(.num 1, "0]"), (.num 2, "1]")]
    ∧ getPathString ["0"] = "0]" ∧ getPathString ["1"] = "1]" := by
  refine ⟨?_, ?_, rfl, rfl⟩
  · unfold walkCalls
    rw [walkV_arr12_false]
    rfl
  · unfold walkCalls
    rw [walkV_arr12_true]
    rfl

/-- Claim C10 is false for empty lists under the default traversal: an empty
array is object-typed but `traverseArray = false` stops recursion, so `walk`
passes the empty list itself to the callback and `flatten` keeps it. -/
theorem claim10_counterexample :
    walkCalls false (.obj [("a", .arr [] [])]) = [(.arr [] [], "a")]
    ∧ flattenV (.obj [("a", .arr [] [])]) = .obj [("a", .arr [] [])] := by
  have h0 : walkV false (.obj [("a", .arr [] [])]) []
      = [(["a"], .arr [] [])] := by
    rw [show walkV false (.obj [("a", .arr [] [])]) []
      = walkFields false (jsObjOrder [("a", .arr [] [])]) [] from by simp [walkV]]
    rw [show jsObjOrder [("a", JSVal.arr [] [])] = [("a", JSVal.arr [] [])] from rfl]
    simp [walkFields, walkEntry, isObjectType, isArrB]
  constructor
  · unfold walkCalls
    rw [h0]
    rfl
  · unfold flattenV walkCalls
    rw [h0]
    rfl

/-- Claim C10 amended: the callback never receives an empty map (an empty
map is always recursed into and contributes nothing), and under
`traverseArray = true` it never receives an empty list either; `flatten`
therefore drops empty maps — `flatten({a:{}})` is `{}`, which `hierarchize`
turns back into `{}`, so `{a:{}}` cannot be reconstructed.  With the default
`traverseArray = false`, however, an empty list is emitted as a terminal
value (see the counterexample). -/
theorem claim10_amended :
    (∀ (ta : Bool) (s : JSVal) (path p : List String),
      (p, JSVal.obj []) ∉ walkV ta s path)
    ∧ (∀ (s : JSVal) (path p : List String),
      (p, JSVal.arr [] []) ∉ walkV true s path)
    ∧ flattenV (.obj [("a", .obj [])]) = .obj []
    ∧ hierarchizeE (flattenV (.obj [("a", .obj [])])) = .ok (.obj []) := by
  have hflat : flattenV (.obj [("a", .obj [])]) = .obj [] := by
    have h0 : walkV false (.obj [("a", .obj [])]) [] = [] := by
      rw [show walkV false (.obj [("a", .obj [])]) []
        = walkFields false (jsObjOrder [("a", .obj [])]) [] from by simp [walkV]]
      rw [show jsObjOrder [("a", JSVal.obj [])] = [("a", JSVal.obj [])] from rfl]
      rw [show walkFields false [("a", JSVal.obj [])] []
        = walkEntry false "a" (.obj []) [] ++ walkFields false [] [] from by
          simp [walkFields]]
      rw [show walkEntry false "a" (JSVal.obj []) []
        = walkV false (.obj []) ["a"] from by simp [walkEntry, isObjectType, isArrB]]
      rw [show walkV false (.obj []) ["a"]
        = walkFields false (jsObjOrder []) ["a"] from by simp [walkV]]
      rw [show jsObjOrder [] = ([] : List (String × JSVal)) from rfl]
      simp [walkFields]
    unfold flattenV walkCalls
    rw [h0]
    rfl
  refine ⟨?_, ?_, hflat, by rw [hflat]; rfl⟩
  · intro ta s path p hmem
    have := walk_emits_only_leaves s ta path (p, .obj []) hmem
    simp [isObjectType, isArrB] at this
  · intro s path p hmem
    have := walk_emits_only_leaves s true path (p, .arr [] []) hmem
    simp [isObjectType, isArrB] at this

/-- Witness for `claim10_amended` at a concrete structure: the object
`{a: 1}` never hands the empty map to the callback. -/
theorem claim10_witness :
    (["x"], JSVal.obj []) ∉ walkV false (.obj [("a", .num 1)]) []
    ∧ (["x"], JSVal.arr [] []) ∉ walkV true (.obj [("a", .num 1)]) [] :=
  ⟨claim10_amended.1 false (.obj [("a", .num 1)]) [] ["x"],
    claim10_amended.2.1 (.obj [("a", .num 1)]) [] ["x"]⟩

theorem nullFreeFields_find {fields : List (String × JSVal)} {k : String}
    {v : JSVal} (h : nullFreeFields fields = true)
    (hf : jsFindProp fields k = some v) : nullFreeB v = true := by
  induction fields with
  | nil => simp [jsFindProp] at hf
  | cons kv rest ih =>
      obtain ⟨k1, w⟩ := kv
      rw [show nullFreeFields ((k1, w) :: rest) = (nullFreeB w && nullFreeFields rest)
        from by simp [nullFreeFields]] at h
      simp only [Bool.and_eq_true] at h
      by_cases he : k1 = k
      · simp [jsFindProp, he] at hf
        exact hf ▸ h.1
      · simp [jsFindProp, he] at hf
        exact ih h.2 hf

theorem nullFreeElems_getD {elems : List (Option JSVal)} {n : Nat} {v : JSVal}
    (h : nullFreeElems elems = true) (hf : elems.getD n none = some v) :
    nullFreeB v = true := by
  induction elems generalizing n with
  | nil => simp at hf
  | cons o rest ih =>
      cases n with
      | zero =>
          simp at hf
          cases o with
          | none => simp at hf
          | some w =>
              rw [show nullFreeElems (some w :: rest) = (nullFreeB w && nullFreeElems rest)
                from by simp [nullFreeElems]] at h
              simp only [Bool.and_eq_true] at h
              simp at hf
              exact hf ▸ h.1
      | succ m =>
          have h2 : nullFreeElems rest = true := by
            cases o with
            | none => rw [show nullFreeElems (none :: rest) = nullFreeElems rest
                from by simp [nullFreeElems]] at h; exact h
            | some w =>
                rw [show nullFreeElems (some w :: rest) = (nullFreeB w && nullFreeElems rest)
                  from by simp [nullFreeElems]] at h
                simp only [Bool.and_eq_true] at h
                exact h.2
          exact ih h2 (by simpa using hf)

theorem arrGet_none {elems : List (Option JSVal)} {n : Nat}
    (hd : elems.getD n none = none) : arrGet elems n = .undef := by
  unfold arrGet
  rw [hd]

theorem arrGet_some {elems : List (Option JSVal)} {n : Nat} {v : JSVal}
    (hd : elems.getD n none = some v) : arrGet elems n = v := by
  unfold arrGet
  rw [hd]

theorem nullFree_index {s : JSVal} {k : String} (ho : isObjectType s = true)
    (hn : nullFreeB s = true) : nullFreeB (jsIndexTotal s k) = true := by
  cases s with
  | null => simp [nullFreeB] at hn
  | obj fields =>
      rw [show nullFreeB (.obj fields) = nullFreeFields fields from by simp [nullFreeB]] at hn
      unfold jsIndexTotal
      cases hf : jsFindProp fields k with
      | none => simp [hf, nullFreeB]
      | some v =>
          simp only [hf, Option.getD_some]
          exact nullFreeFields_find hn hf
  | arr elems props =>
      rw [show nullFreeB (.arr elems props) = (nullFreeElems elems && nullFreeFields props)
        from by simp [nullFreeB]] at hn
      simp only [Bool.and_eq_true] at hn
      unfold jsIndexTotal
      cases hc : isCanonIdx k with
      | some n =>
          simp only [hc]
          cases hd : elems.getD n none with
          | none => rw [arrGet_none hd]; simp [nullFreeB]
          | some v => rw [arrGet_some hd]; exact nullFreeElems_getD hn.1 hd
      | none =>
          simp only [hc]
          cases hf : jsFindProp props k with
          | none => simp [hf, nullFreeB]
          | some v =>
              simp only [hf, Option.getD_some]
              exact nullFreeFields_find hn.2 hf
  | undef => simp [isObjectType] at ho
  | bool b => simp [isObjectType] at ho
  | num n => simp [isObjectType] at ho
  | str t => simp [isObjectType] at ho

/-- Claim C5 is false on the code: when `delete`'s traversal reaches a
scalar with segments remaining, the `key in source` test is applied to a
primitive and raises a `TypeError` rather than returning `null`.  The path
`a.b` in `{a: 1}` is absent (`has` returns `false`), yet `delete` throws. -/
theorem claim5_counterexample :
    hasL (.obj [("a", .num 1)]) ["a", "b"] = .ok false
    ∧ getL (.obj [("a", .num 1)]) ["a", "b"] .null = .ok .null
    ∧ deleteL (.obj [("a", .num 1)]) ["a", "b"] = .error .typeError :=
  ⟨rfl, rfl, rfl⟩

/-- Claim C5 amended: whenever `has` reports a path absent, `get` returns
its fallback; on null-free structures `has` and `get` never raise (a
non-composite met mid-path degrades to `false`/fallback); and `delete`
returns `null` without error when the first missing key is met in an
object — but `delete` raises a `TypeError` when segments remain at a
non-object value, and `has`/`get` raise a `TypeError` when they index into
`null` (`typeof null === 'object'`). -/
theorem claim5_amended :
    (∀ (s : JSVal) (p : List String) (fb : JSVal),
      hasL s p = .ok false → getL s p fb = .ok fb)
    ∧ (∀ (s : JSVal) (p : List String) (fb : JSVal), nullFreeB s = true →
      (∃ b, hasL s p = .ok b) ∧ (∃ v, getL s p fb = .ok v))
    ∧ (∀ (fields : List (String × JSVal)) (k : String) (p : List String),
      jsFindProp fields k = none → deleteL (.obj fields) (k :: p) = .ok (.null, .obj fields))
    ∧ (∀ (v : JSVal) (k : String) (p : List String), isObjectType v = false →
      deleteL v (k :: p) = .error .typeError)
    ∧ (∀ (k : String) (p : List String) (fb : JSVal),
      hasL .null (k :: p) = .error .typeError
      ∧ getL .null (k :: p) fb = .error .typeError) := by
  refine ⟨?_, ?_, ?_, ?_, fun _ _ _ => ⟨rfl, rfl⟩⟩
  · intro s p
    induction p generalizing s with
    | nil =>
        intro fb h
        cases s <;> simp_all [hasL, getL, isUndefB]
    | cons k rest ih =>
        intro fb h
        by_cases ho : isObjectType s = true
        · cases s with
          | null =>
              rw [show hasL .null (k :: rest) = .error .typeError from rfl] at h
              exact absurd h (by simp)
          | obj fields =>
              rw [show hasL (.obj fields) (k :: rest)
                = hasL (jsIndexTotal (.obj fields) k) rest from by
                  simp [hasL, isObjectType, jsIndexE]] at h
              rw [show getL (.obj fields) (k :: rest) fb
                = getL (jsIndexTotal (.obj fields) k) rest fb from by
                  simp [getL, isObjectType, jsIndexE]]
              exact ih _ _ h
          | arr elems props =>
              rw [show hasL (.arr elems props) (k :: rest)
                = hasL (jsIndexTotal (.arr elems props) k) rest from by
                  simp [hasL, isObjectType, jsIndexE]] at h
              rw [show getL (.arr elems props) (k :: rest) fb
                = getL (jsIndexTotal (.arr elems props) k) rest fb from by
                  simp [getL, isObjectType, jsIndexE]]
              exact ih _ _ h
          | undef => simp [isObjectType] at ho
          | bool b => simp [isObjectType] at ho
          | num n => simp [isObjectType] at ho
          | str t => simp [isObjectType] at ho
        · simp only [Bool.not_eq_true] at ho
          simp [getL, ho]
  · intro s p
    induction p generalizing s with
    | nil => exact fun fb _ => ⟨⟨_, rfl⟩, ⟨_, rfl⟩⟩
    | cons k rest ih =>
        intro fb hn
        by_cases ho : isObjectType s = true
        · have hnull : s ≠ .null := by
            rintro rfl
            simp [nullFreeB] at hn
          have hidx : jsIndexE s k = .ok (jsIndexTotal s k) := by
            cases s <;> simp_all [jsIndexE]
          have hrec := ih (jsIndexTotal s k) fb (nullFree_index ho hn)
          constructor
          · obtain ⟨b, hb⟩ := hrec.1
            exact ⟨b, by simp [hasL, ho, hidx, hb]⟩
          · obtain ⟨v, hv⟩ := hrec.2
            exact ⟨v, by simp [getL, ho, hidx, hv]⟩
        · simp only [Bool.not_eq_true] at ho
          exact ⟨⟨false, by simp [hasL, ho]⟩, ⟨fb, by simp [getL, ho]⟩⟩
  · intro fields k p h
    simp [deleteL, jsInE, h]
    rfl
  · intro v k p ho
    cases v <;> simp_all [deleteL, jsInE, isObjectType]

/-- Witness for `claim5_amended` at the structure `{a: 1}` and path
`a.b`. -/
theorem claim5_witness :
    getL (.obj [("a", .num 1)]) ["a", "b"] (.str "fb") = .ok (.str "fb")
    ∧ ((∃ b, hasL (.obj [("a", .num 1)]) ["a", "b"] = .ok b)
        ∧ (∃ v, getL (.obj [("a", .num 1)]) ["a", "b"] .null = .ok v))
    ∧ deleteL (.obj [("b", .num 2)]) ["a"] = .ok (.null, .obj [("b", .num 2)])
    ∧ deleteL (.num 1) ["b"] = .error .typeError := by
  refine ⟨claim5_amended.1 _ _ _ rfl, claim5_amended.2.1 _ _ _ ?_,
    claim5_amended.2.2.1 [("b", .num 2)] "a" [] rfl,
    claim5_amended.2.2.2.1 (.num 1) "b" [] rfl⟩
  simp [nullFreeB, nullFreeFields]

theorem jsSetProp_self {fields : List (String × JSVal)} {k : String} {v : JSVal}
    (h : jsFindProp fields k = some v) : jsSetProp fields k v = fields := by
  induction fields with
  | nil => simp [jsFindProp] at h
  | cons kv rest ih =>
      obtain ⟨k1, w⟩ := kv
      by_cases he : k1 = k
      · simp [jsFindProp, he] at h
        simp [jsSetProp, he, h]
      · simp [jsFindProp, he] at h
        simp [jsSetProp, he, ih h]

theorem listSet_same {elems : List (Option JSVal)} {n : Nat} {v : JSVal}
    (h : elems.getD n none = some v) : elems.set n (some v) = elems := by
  induction elems generalizing n with
  | nil => simp at h
  | cons o rest ih =>
      cases n with
      | zero => simp_all
      | succ m =>
          rw [List.getD_cons_succ] at h
          rw [List.set_cons_succ, ih h]

theorem getD_some_lt {elems : List (Option JSVal)} {n : Nat} {v : JSVal}
    (h : elems.getD n none = some v) : n < elems.length := by
  by_contra hge
  rw [List.getD_eq_default] at h
  · simp at h
  · omega

theorem arrWrite_same {elems : List (Option JSVal)} {n : Nat} {v : JSVal}
    (h : elems.getD n none = some v) : arrWrite elems n v = elems := by
  unfold arrWrite
  rw [if_pos (getD_some_lt h)]
  exact listSet_same h

theorem write_back_same {s : JSVal} {k : String} (hin : jsInE s k = .ok true) :
    jsWrite s k (jsIndexTotal s k) = .ok s := by
  cases s with
  | obj fields =>
      simp only [jsInE, Except.ok.injEq, Option.isSome_iff_exists] at hin
      obtain ⟨v, hv⟩ := hin
      simp [jsWrite, jsIndexTotal, hv, jsSetProp_self hv]
  | arr elems props =>
      simp only [jsInE, Except.ok.injEq] at hin
      cases hc : isCanonIdx k with
      | some n =>
          rw [hc] at hin
          simp only [Option.isSome_iff_exists] at hin
          obtain ⟨v, hv⟩ := hin
          simp [jsWrite, jsIndexTotal, hc, arrGet_some hv, arrWrite_same hv]
      | none =>
          rw [hc] at hin
          simp only [Option.isSome_iff_exists] at hin
          obtain ⟨v, hv⟩ := hin
          simp [jsWrite, jsIndexTotal, hc, hv, jsSetProp_self hv]
  | null => simp [jsInE] at hin
  | undef => simp [jsInE] at hin
  | bool b => simp [jsInE] at hin
  | num n => simp [jsInE] at hin
  | str t => simp [jsInE] at hin

theorem noUndefFields_find {fields : List (String × JSVal)} {k : String}
    {v : JSVal} (h : noUndefFields fields = true)
    (hf : jsFindProp fields k = some v) : noUndefB v = true := by
  induction fields with
  | nil => simp [jsFindProp] at hf
  | cons kv rest ih =>
      obtain ⟨k1, w⟩ := kv
      rw [show noUndefFields ((k1, w) :: rest) = (noUndefB w && noUndefFields rest)
        from by simp [noUndefFields]] at h
      simp only [Bool.and_eq_true] at h
      by_cases he : k1 = k
      · simp [jsFindProp, he] at hf
        exact hf ▸ h.1
      · simp [jsFindProp, he] at hf
        exact ih h.2 hf

theorem noUndefElems_getD {elems : List (Option JSVal)} {n : Nat} {v : JSVal}
    (h : noUndefElems elems = true) (hf : elems.getD n none = some v) :
    noUndefB v = true := by
  induction elems generalizing n with
  | nil => simp at hf
  | cons o rest ih =>
      cases n with
      | zero =>
          simp at hf
          cases o with
          | none => simp at hf
          | some w =>
              rw [show noUndefElems (some w :: rest) = (noUndefB w && noUndefElems rest)
                from by simp [noUndefElems]] at h
              simp only [Bool.and_eq_true] at h
              simp at hf
              exact hf ▸ h.1
      | succ m =>
          have h2 : noUndefElems rest = true := by
            cases o with
            | none => rw [show noUndefElems (none :: rest) = noUndefElems rest
                from by simp [noUndefElems]] at h; exact h
            | some w =>
                rw [show noUndefElems (some w :: rest) = (noUndefB w && noUndefElems rest)
                  from by simp [noUndefElems]] at h
                simp only [Bool.and_eq_true] at h
                exact h.2
          exact ih h2 (by simpa using hf)

theorem noUndef_in_child {s : JSVal} {k : String} (hin : jsInE s k = .ok true)
    (hn : noUndefB s = true) :
    noUndefB (jsIndexTotal s k) = true ∧ jsIndexTotal s k ≠ .undef := by
  cases s with
  | obj fields =>
      rw [show noUndefB (.obj fields) = noUndefFields fields from by simp [noUndefB]] at hn
      simp only [jsInE, Except.ok.injEq, Option.isSome_iff_exists] at hin
      obtain ⟨v, hv⟩ := hin
      have := noUndefFields_find hn hv
      refine ⟨by simp [jsIndexTotal, hv, this], ?_⟩
      simp only [jsIndexTotal, hv, Option.getD_some]
      rintro rfl
      simp [noUndefB] at this
  | arr elems props =>
      rw [show noUndefB (.arr elems props) = (noUndefElems elems && noUndefFields props)
        from by simp [noUndefB]] at hn
      simp only [Bool.and_eq_true] at hn
      simp only [jsInE, Except.ok.injEq] at hin
      cases hc : isCanonIdx k with
      | some n =>
          rw [hc] at hin
          simp only [Option.isSome_iff_exists] at hin
          obtain ⟨v, hv⟩ := hin
          have := noUndefElems_getD hn.1 hv
          refine ⟨by simp [jsIndexTotal, hc, arrGet_some hv, this], ?_⟩
          rw [show jsIndexTotal (.arr elems props) k = arrGet elems n from by
            simp [jsIndexTotal, hc], arrGet_some hv]
          rintro rfl
          simp [noUndefB] at this
      | none =>
          rw [hc] at hin
          simp only [Option.isSome_iff_exists] at hin
          obtain ⟨v, hv⟩ := hin
          have := noUndefFields_find hn.2 hv
          refine ⟨by simp [jsIndexTotal, hc, hv, this], ?_⟩
          rw [show jsIndexTotal (.arr elems props) k = (jsFindProp props k).getD .undef
            from by simp [jsIndexTotal, hc], hv]
          rintro h
          simp at h
          rw [h] at this
          simp [noUndefB] at this
  | null => simp [jsInE] at hin
  | undef => simp [jsInE] at hin
  | bool b => simp [jsInE] at hin
  | num n => simp [jsInE] at hin
  | str t => simp [jsInE] at hin

theorem inE_of_index_ne_undef {s : JSVal} {k : String}
    (ho : isObjectType s = true) (hnull : s ≠ .null)
    (hne : jsIndexTotal s k ≠ .undef) : jsInE s k = .ok true := by
  cases s with
  | obj fields =>
      cases hv : jsFindProp fields k with
      | none => exact absurd (by simp [jsIndexTotal, hv]) hne
      | some v => simp [jsInE, hv]
  | arr elems props =>
      cases hc : isCanonIdx k with
      | some n =>
          cases hd : elems.getD n none with
          | none =>
              refine absurd ?_ hne
              rw [show jsIndexTotal (.arr elems props) k = arrGet elems n from by
                simp [jsIndexTotal, hc]]
              exact arrGet_none hd
          | some v =>
              simp only [jsInE, hc]
              rw [hd]
              rfl
      | none =>
          cases hv : jsFindProp props k with
          | none => exact absurd (by simp [jsIndexTotal, hc, hv]) hne
          | some v => simp [jsInE, hc, hv]
  | null => exact absurd rfl hnull
  | undef => simp [isObjectType] at ho
  | bool b => simp [isObjectType] at ho
  | num n => simp [isObjectType] at ho
  | str t => simp [isObjectType] at ho

theorem hasL_true_ne_undef {v : JSVal} {p : List String}
    (h : hasL v p = .ok true) : v ≠ .undef := by
  rintro rfl
  cases p with
  | nil => simp [hasL, isUndefB] at h
  | cons k rest => simp [hasL, isObjectType] at h

theorem hasL_cons_true_elim {s : JSVal} {k : String} {rest : List String}
    (h : hasL s (k :: rest) = .ok true) :
    isObjectType s = true ∧ s ≠ .null ∧ hasL (jsIndexTotal s k) rest = .ok true := by
  cases s with
  | null => exact absurd h (by simp [hasL, jsIndexE, isObjectType])
  | obj fields => exact ⟨rfl, by simp, h⟩
  | arr elems props => exact ⟨rfl, by simp, h⟩
  | undef => exact absurd h (by simp [hasL, isObjectType])
  | bool b => exact absurd h (by simp [hasL, isObjectType])
  | num n => exact absurd h (by simp [hasL, isObjectType])
  | str t => exact absurd h (by simp [hasL, isObjectType])

theorem jsWrite_total_eq {s : JSVal} {k : String} {v : JSVal}
    (ho : isObjectType s = true) (hnull : s ≠ .null) :
    jsWrite s k v = .ok (jsWriteTotal s k v) := by
  cases s with
  | obj fields => rfl
  | arr elems props => rfl
  | null => exact absurd rfl hnull
  | undef => simp [isObjectType] at ho
  | bool b => simp [isObjectType] at ho
  | num n => simp [isObjectType] at ho
  | str t => simp [isObjectType] at ho

theorem delete_present : ∀ (p : List String) (s : JSVal), p ≠ [] →
    hasL s p = .ok true → deleteL s p = .ok (fetchTotal s p, eraseAt s p) := by
  intro p
  induction p with
  | nil => intro s hne _; exact absurd rfl hne
  | cons k rest ih =>
      intro s _ h
      obtain ⟨ho, hnull, hrec⟩ := hasL_cons_true_elim h
      have hin : jsInE s k = .ok true :=
        inE_of_index_ne_undef ho hnull (hasL_true_ne_undef hrec)
      cases rest with
      | nil =>
          conv_lhs => rw [deleteL]
          simp only [hin, ebind_ok, if_true]
          rfl
      | cons r rs =>
          have hdel := ih (jsIndexTotal s k) (by simp) hrec
          conv_lhs => rw [deleteL]
          simp only [hin, ebind_ok, if_true, hdel, jsWrite_total_eq ho hnull,
            ebind_ok]
          rfl

theorem delete_absent : ∀ (p : List String) (s : JSVal), noUndefB s = true →
    hasL s p = .ok false →
    deleteL s p = .ok (.null, s) ∨ deleteL s p = .error .typeError := by
  intro p
  induction p with
  | nil =>
      intro s hnu h
      simp only [hasL, Except.ok.injEq, Bool.not_eq_false'] at h
      cases s <;> simp_all [isUndefB, noUndefB]
  | cons k rest ih =>
      intro s hnu h
      by_cases ho : isObjectType s = true
      · have hnull : s ≠ .null := by
          rintro rfl
          rw [show hasL .null (k :: rest) = .error .typeError from rfl] at h
          exact absurd h (by simp)
        have hh : hasL (jsIndexTotal s k) rest = .ok false := by
          cases s with
          | obj fields => exact h
          | arr elems props => exact h
          | null => exact absurd rfl hnull
          | undef => simp [isObjectType] at ho
          | bool b => simp [isObjectType] at ho
          | num n => simp [isObjectType] at ho
          | str t => simp [isObjectType] at ho
        have hinE : ∃ b, jsInE s k = .ok b := by
          cases s with
          | obj fields => exact ⟨_, rfl⟩
          | arr elems props => exact ⟨_, rfl⟩
          | null => exact absurd rfl hnull
          | undef => simp [isObjectType] at ho
          | bool b => simp [isObjectType] at ho
          | num n => simp [isObjectType] at ho
          | str t => simp [isObjectType] at ho
        obtain ⟨b, hin⟩ := hinE
        cases b with
        | false =>
            left
            rw [deleteL.eq_def]
            simp only [hin, ebind_ok, Bool.false_eq_true, if_false]
            rfl
        | true =>
            obtain ⟨hnuc, hcne⟩ := noUndef_in_child hin hnu
            cases rest with
            | nil =>
                exfalso
                simp only [hasL, Except.ok.injEq, Bool.not_eq_false'] at hh
                exact hcne (by cases hc : jsIndexTotal s k <;> simp_all [isUndefB])
            | cons r rs =>
                rcases ih (jsIndexTotal s k) hnuc hh with hok | herr
                · left
                  conv_lhs => rw [deleteL]
                  simp only [hin, ebind_ok, if_true, hok, write_back_same hin,
                    ebind_ok]
                  rfl
                · right
                  conv_lhs => rw [deleteL]
                  simp only [hin, ebind_ok, if_true, herr, ebind_err]
      · right
        cases s with
        | undef => rw [deleteL.eq_def]; simp [jsInE]
        | bool b => rw [deleteL.eq_def]; simp [jsInE]
        | num n => rw [deleteL.eq_def]; simp [jsInE]
        | str t => rw [deleteL.eq_def]; simp [jsInE]
        | null => simp [isObjectType] at ho
        | obj fields => simp [isObjectType] at ho
        | arr elems props => simp [isObjectType] at ho

/-- Claim C9 is false as stated: on `{a: undefined}`, the path `a` is absent
from `has`'s perspective, yet `delete` (whose presence test is `in`) removes
the key and returns `undefined`, not `null`, mutating the structure. -/
theorem claim9_counterexample :
    hasL (.obj [("a", .undef)]) ["a"] = .ok false
    ∧ deleteL (.obj [("a", .undef)]) ["a"] = .ok (.undef, .obj [])
    ∧ JSVal.undef ≠ JSVal.null
    ∧ JSVal.obj [] ≠ JSVal.obj [("a", JSVal.undef)] :=
  ⟨rfl, rfl, by simp, by simp⟩

/-- Claim C9 amended: on a present path (in `has`'s sense, which on
structures free of explicit `undefined` coincides with key presence),
`delete` returns the value at the path and removes exactly the final key
(`eraseAt`), leaving everything else unchanged; on an absent path over a
structure with no explicit `undefined` values, `delete` either returns
`null` with the structure completely unchanged, or raises a `TypeError`
when the traversal meets a non-object with segments remaining — it never
removes anything. -/
theorem claim9_amended :
    (∀ (s : JSVal) (p : List String), p ≠ [] → hasL s p = .ok true →
      deleteL s p = .ok (fetchTotal s p, eraseAt s p))
    ∧ (∀ (s : JSVal) (p : List String), noUndefB s = true →
      hasL s p = .ok false →
      deleteL s p = .ok (.null, s) ∨ deleteL s p = .error .typeError) :=
  ⟨fun s p hne h => delete_present p s hne h,
    fun s p hnu h => delete_absent p s hnu h⟩

/-- Witness for `claim9_amended`: deleting the present leaf `a.b` of
`{a:{b:5}}` returns `5` and erases exactly that key; deleting the absent
`b` of `{a:1}` returns `null` and changes nothing. -/
theorem claim9_witness :
    deleteL (.obj [("a", .obj [("b", .num 5)])]) ["a", "b"]
      = .ok (fetchTotal (.obj [("a", .obj [("b", .num 5)])]) ["a", "b"],
             eraseAt (.obj [("a", .obj [("b", .num 5)])]) ["a", "b"])
    ∧ (deleteL (.obj [("a", .num 1)]) ["b"] = .ok (.null, .obj [("a", .num 1)])
        ∨ deleteL (.obj [("a", .num 1)]) ["b"] = .error .typeError) := by
  constructor
  · exact claim9_amended.1 (.obj [("a", .obj [("b", .num 5)])]) ["a", "b"]
      (by simp) rfl
  · exact claim9_amended.2 (.obj [("a", .num 1)]) ["b"]
      (by simp [noUndefB, noUndefFields]) rfl

theorem arrWrite_cons_succ (o : Option JSVal) (rest : List (Option JSVal))
    (m : Nat) (v : JSVal) :
    arrWrite (o :: rest) (m + 1) v = o :: arrWrite rest m v := by
  unfold arrWrite
  by_cases h : m < rest.length
  · rw [if_pos (by simp; omega), if_pos h]
    rfl
  · rw [if_neg (by simp; omega), if_neg h]
    simp

theorem replicate_append_getD (n : Nat) (v : JSVal) :
    (List.replicate n (none : Option JSVal) ++ [some v]).getD n none = some v := by
  induction n with
  | zero => rfl
  | succ m ih => simpa using ih

theorem arrWrite_getD (elems : List (Option JSVal)) (n : Nat) (v : JSVal) :
    (arrWrite elems n v).getD n none = some v := by
  induction elems generalizing n with
  | nil =>
      rw [show arrWrite [] n v = List.replicate n none ++ [some v] from by
        unfold arrWrite; simp]
      exact replicate_append_getD n v
  | cons o rest ih =>
      cases n with
      | zero =>
          rw [show arrWrite (o :: rest) 0 v = some v :: rest from by
            unfold arrWrite; simp]
          rfl
      | succ m =>
          rw [arrWrite_cons_succ, List.getD_cons_succ]
          exact ih m

theorem jsWriteTotal_objtype {s : JSVal} {k : String} {v : JSVal}
    (ho : isObjectType s = true) (hnull : s ≠ .null) :
    isObjectType (jsWriteTotal s k v) = true ∧ jsWriteTotal s k v ≠ .null := by
  cases s with
  | obj fields => exact ⟨rfl, by simp [jsWriteTotal, jsWrite]⟩
  | arr elems props =>
      refine ⟨?_, ?_⟩ <;>
        · rw [show jsWriteTotal (.arr elems props) k v = (match isCanonIdx k with
            | some n => JSVal.arr (arrWrite elems n v) props
            | none => JSVal.arr elems (jsSetProp props k v)) from rfl]
          cases isCanonIdx k <;> simp [isObjectType]
  | null => exact absurd rfl hnull
  | undef => simp [isObjectType] at ho
  | bool b => simp [isObjectType] at ho
  | num n => simp [isObjectType] at ho
  | str t => simp [isObjectType] at ho

theorem index_write_same {s : JSVal} {k : String} {v : JSVal}
    (ho : isObjectType s = true) (hnull : s ≠ .null) :
    jsIndexTotal (jsWriteTotal s k v) k = v := by
  cases s with
  | obj fields =>
      rw [show jsWriteTotal (.obj fields) k v = .obj (jsSetProp fields k v) from rfl]
      simp [jsIndexTotal, jsFindProp_setProp_same]
  | arr elems props =>
      cases hc : isCanonIdx k with
      | some n =>
          rw [show jsWriteTotal (.arr elems props) k v = .arr (arrWrite elems n v) props
            from by simp [jsWriteTotal, jsWrite, hc]]
          rw [show jsIndexTotal (.arr (arrWrite elems n v) props) k = arrGet (arrWrite elems n v) n
            from by simp [jsIndexTotal, hc]]
          exact arrGet_some (arrWrite_getD elems n v)
      | none =>
          rw [show jsWriteTotal (.arr elems props) k v = .arr elems (jsSetProp props k v)
            from by simp [jsWriteTotal, jsWrite, hc]]
          rw [show jsIndexTotal (.arr elems (jsSetProp props k v)) k
            = (jsFindProp (jsSetProp props k v) k).getD .undef from by simp [jsIndexTotal, hc]]
          simp [jsFindProp_setProp_same]
  | null => exact absurd rfl hnull
  | undef => simp [isObjectType] at ho
  | bool b => simp [isObjectType] at ho
  | num n => simp [isObjectType] at ho
  | str t => simp [isObjectType] at ho

@[simp] theorem epure_eq {e : Type} {a : Type} (x : a) :
    (pure x : Except e a) = Except.ok x := rfl

theorem hasL_cons_step {s : JSVal} {k : String} {rest : List String}
    (ho : isObjectType s = true) (hnull : s ≠ .null) :
    hasL s (k :: rest) = hasL (jsIndexTotal s k) rest := by
  cases s with
  | obj fields => rfl
  | arr elems props => rfl
  | null => exact absurd rfl hnull
  | undef => simp [isObjectType] at ho
  | bool b => simp [isObjectType] at ho
  | num n => simp [isObjectType] at ho
  | str t => simp [isObjectType] at ho

theorem getL_cons_step {s : JSVal} {k : String} {rest : List String}
    {fb : JSVal} (ho : isObjectType s = true) (hnull : s ≠ .null) :
    getL s (k :: rest) fb = getL (jsIndexTotal s k) rest fb := by
  cases s with
  | obj fields => rfl
  | arr elems props => rfl
  | null => exact absurd rfl hnull
  | undef => simp [isObjectType] at ho
  | bool b => simp [isObjectType] at ho
  | num n => simp [isObjectType] at ho
  | str t => simp [isObjectType] at ho

theorem jsWrite_prim_err {d : JSVal} {k : String} {v : JSVal}
    (ho : isObjectType d = false ∨ d = .null) :
    jsWrite d k v = .error .typeError := by
  cases d <;> simp_all [jsWrite, isObjectType]

theorem setL_single_ok {d : JSVal} {k : String} {v d' : JSVal}
    (h : setL d [k] v = .ok d') :
    isObjectType d = true ∧ d ≠ .null ∧ d' = jsWriteTotal d k v := by
  rw [show setL d [k] v = jsWrite d k v from by rw [setL]] at h
  cases d with
  | obj fields =>
      refine ⟨rfl, by simp, ?_⟩
      rw [jsWrite_total_eq (s := .obj fields) rfl (by simp)] at h
      exact (Except.ok.injEq _ _ ▸ h).symm
  | arr elems props =>
      refine ⟨rfl, by simp, ?_⟩
      rw [jsWrite_total_eq (s := .arr elems props) rfl (by simp)] at h
      exact (Except.ok.injEq _ _ ▸ h).symm
  | null => exact absurd h (by simp [jsWrite])
  | undef => exact absurd h (by simp [jsWrite])
  | bool b => exact absurd h (by simp [jsWrite])
  | num n => exact absurd h (by simp [jsWrite])
  | str t => exact absurd h (by simp [jsWrite])

theorem setL_cons_ok {d : JSVal} {k next : String} {rest : List String}
    {v d' : JSVal} (h : setL d (k :: next :: rest) v = .ok d') :
    ∃ dest1 c, isObjectType dest1 = true ∧ dest1 ≠ .null
      ∧ setL (jsIndexTotal dest1 k) (next :: rest) v = .ok c
      ∧ d' = jsWriteTotal dest1 k c := by
  rw [setL] at h
  cases d with
  | null => exact absurd h (by simp [jsInE])
  | undef => exact absurd h (by simp [jsInE])
  | bool b => exact absurd h (by simp [jsInE])
  | num n => exact absurd h (by simp [jsInE])
  | str t => exact absurd h (by simp [jsInE])
  | obj fields =>
      rw [show jsInE (.obj fields) k = .ok (jsFindProp fields k).isSome from rfl] at h
      simp only [ebind_ok] at h
      cases hp : (jsFindProp fields k).isSome with
      | true =>
          rw [hp] at h
          simp only [if_true, epure_eq, ebind_ok] at h
          cases e : setL (jsIndexTotal (.obj fields) k) (next :: rest) v with
          | error err => rw [e] at h; exact absurd h (by simp)
          | ok c =>
              rw [e] at h
              simp only [ebind_ok] at h
              rw [jsWrite_total_eq (s := .obj fields) rfl (by simp)] at h
              exact ⟨.obj fields, c, rfl, by simp, e,
                (Except.ok.injEq _ _ ▸ h).symm⟩
      | false =>
          rw [hp] at h
          simp only [Bool.false_eq_true, if_false] at h
          rw [jsWrite_total_eq (s := .obj fields) rfl (by simp)] at h
          simp only [ebind_ok] at h
          cases e : setL (jsIndexTotal
              (jsWriteTotal (.obj fields) k
                (if jsParseIntNaN next then .obj [] else .arr [] [])) k)
              (next :: rest) v with
          | error err => rw [e] at h; exact absurd h (by simp)
          | ok c =>
              rw [e] at h
              simp only [ebind_ok] at h
              have hW := jsWriteTotal_objtype (s := JSVal.obj fields) (k := k)
                (v := if jsParseIntNaN next then .obj [] else .arr [] []) rfl (by simp)
              rw [jsWrite_total_eq hW.1 hW.2] at h
              exact ⟨_, c, hW.1, hW.2, e, (Except.ok.injEq _ _ ▸ h).symm⟩
  | arr elems props =>
      rw [show jsInE (.arr elems props) k = .ok (match isCanonIdx k with
        | some n => (elems.getD n none).isSome
        | none => (jsFindProp props k).isSome) from rfl] at h
      simp only [ebind_ok] at h
      cases hp : (match isCanonIdx k with
        | some n => (elems.getD n none).isSome
        | none => (jsFindProp props k).isSome) with
      | true =>
          rw [hp] at h
          simp only [if_true, epure_eq, ebind_ok] at h
          cases e : setL (jsIndexTotal (.arr elems props) k) (next :: rest) v with
          | error err => rw [e] at h; exact absurd h (by simp)
          | ok c =>
              rw [e] at h
              simp only [ebind_ok] at h
              rw [jsWrite_total_eq (s := .arr elems props) rfl (by simp)] at h
              exact ⟨.arr elems props, c, rfl, by simp, e,
                (Except.ok.injEq _ _ ▸ h).symm⟩
      | false =>
          rw [hp] at h
          simp only [Bool.false_eq_true, if_false] at h
          rw [jsWrite_total_eq (s := .arr elems props) rfl (by simp)] at h
          simp only [ebind_ok] at h
          cases e : setL (jsIndexTotal
              (jsWriteTotal (.arr elems props) k
                (if jsParseIntNaN next then .obj [] else .arr [] [])) k)
              (next :: rest) v with
          | error err => rw [e] at h; exact absurd h (by simp)
          | ok c =>
              rw [e] at h
              simp only [ebind_ok] at h
              have hW := jsWriteTotal_objtype (s := JSVal.arr elems props) (k := k)
                (v := if jsParseIntNaN next then .obj [] else .arr [] []) rfl (by simp)
              rw [jsWrite_total_eq hW.1 hW.2] at h
              exact ⟨_, c, hW.1, hW.2, e, (Except.ok.injEq _ _ ▸ h).symm⟩

theorem set_then_get : ∀ (p : List String) (d v d' : JSVal), p ≠ [] →
    setL d p v = .ok d' →
    hasL d' p = .ok (!isUndefB v)
    ∧ ∀ fb, getL d' p fb = .ok (if isUndefB v then fb else v) := by
  intro p
  induction p with
  | nil => intro d v d' hne _; exact absurd rfl hne
  | cons k rest ih =>
      intro d v d' _ h
      cases rest with
      | nil =>
          obtain ⟨ho, hnull, rfl⟩ := setL_single_ok h
          have hW := jsWriteTotal_objtype (k := k) (v := v) ho hnull
          rw [hasL_cons_step hW.1 hW.2, index_write_same ho hnull]
          refine ⟨rfl, fun fb => ?_⟩
          rw [getL_cons_step hW.1 hW.2, index_write_same ho hnull]
          rfl
      | cons next rs =>
          obtain ⟨dest1, c, ho, hnull, he, rfl⟩ := setL_cons_ok h
          have hrec := ih (jsIndexTotal dest1 k) v c (by simp) he
          have hW := jsWriteTotal_objtype (k := k) (v := c) ho hnull
          rw [hasL_cons_step hW.1 hW.2, index_write_same ho hnull]
          refine ⟨hrec.1, fun fb => ?_⟩
          rw [getL_cons_step hW.1 hW.2, index_write_same ho hnull]
          exact hrec.2 fb

theorem isUndefB_false_of_ne {v : JSVal} (hv : v ≠ .undef) : isUndefB v = false := by
  cases v <;> simp_all [isUndefB]

/-- Claim C8 is false as stated.  With a pre-split (array) path, `has`
destructively consumes the caller's array, so when the path is absent the
subsequent `set` receives zero segments and `ensure` raises `Invalid path`
instead of returning a value.  With a string path whose two grammars
disagree, such as `"a[0]"`, `ensure` sets under `["a","0"]` but `has`/`get`
look up the literal key `"a[0]"`: the call returns `null` (neither the
prior value nor the fallback) and the path is still absent afterwards. -/
theorem claim8_counterexample :
    ensureA (.obj []) ["a"] (.num 5) = .error .invalidPath
    ∧ ensureS (.obj []) "a[0]" (.num 5)
        = .ok (.null, .obj [("a", .arr [some (.num 5)] [])])
    ∧ hasS (.obj [("a", .arr [some (.num 5)] [])]) "a[0]" = .ok false
    ∧ JSVal.null ≠ JSVal.num 5 :=
  ⟨rfl, rfl, rfl, by simp⟩

/-- Claim C8 amended: for a string path on which the dot-splitter and the
bracket-aware matcher agree, and a fallback other than `undefined`, a
successful `ensure(d, p, v) = (r, d1)` is idempotent — the second call
returns the same value and leaves the structure untouched — and afterwards
the path is present and holds `r`, which is the prior value when the path
was present and the fallback `v` otherwise. -/
theorem claim8_amended (d : JSVal) (p : String) (v r d1 : JSVal)
    (hagree : jsMatchSegs p = some (jsSplitDot p)) (hv : v ≠ .undef)
    (h : ensureS d p v = .ok (r, d1)) :
    ensureS d1 p v = .ok (r, d1)
    ∧ hasS d1 p = .ok true
    ∧ getS d1 p .null = .ok r
    ∧ (hasS d p = .ok false → r = v)
    ∧ (hasS d p = .ok true → getS d p .null = .ok r ∧ d1 = d) := by
  have hunf : ∀ (x : JSVal), ensureS x p v = (do
      let present ← hasS x p
      if present then do
        let r0 ← getS x p .null
        pure (r0, x)
      else do
        let dest1 ← setS x p v
        let r0 ← getS dest1 p .null
        pure (r0, dest1)) := fun _ => rfl
  rcases hb : hasS d p with e | b
  · rw [hunf d, hb] at h
    exact absurd h (by simp)
  rcases b
  -- hasS d p = .ok false: the fallback is installed by set
  · rw [hunf d, hb] at h
    simp only [ebind_ok, Bool.false_eq_true, if_false] at h
    rcases hs : setS d p v with e | dd
    · rw [hs] at h
      exact absurd h (by simp)
    rw [hs] at h
    simp only [ebind_ok] at h
    rcases hg : getS dd p .null with e | r0
    · rw [hg] at h
      exact absurd h (by simp)
    rw [hg] at h
    simp only [ebind_ok, epure_eq, Except.ok.injEq, Prod.mk.injEq] at h
    have h1 : r0 = r := h.1
    have h2 : dd = d1 := h.2
    have hsL : setL d (jsSplitDot p) v = .ok dd := by
      rw [show setS d p v = (match jsMatchSegs p with
        | none => .error .typeError
        | some segs => setL d segs v) from rfl, hagree] at hs
      exact hs
    have stg := set_then_get (jsSplitDot p) d v dd (jsSplitDot_ne_nil p) hsL
    have hgv : getS dd p .null = .ok v := by
      rw [show getS dd p .null = getL dd (jsSplitDot p) .null from rfl,
        stg.2 .null, isUndefB_false_of_ne hv]
      simp
    have hb1 : hasS d1 p = .ok true := by
      rw [← h2, show hasS dd p = hasL dd (jsSplitDot p) from rfl, stg.1,
        isUndefB_false_of_ne hv]
      rfl
    have hr0 : r0 = v := by
      rw [hgv] at hg
      simpa using hg.symm
    have hr : r = v := h1 ▸ hr0
    have hg1 : getS d1 p .null = .ok r := by
      rw [← h2, hgv, hr]
    refine ⟨?_, hb1, hg1, fun _ => hr, fun hf => by simp at hf⟩
    simp only [hunf d1, hb1, ebind_ok, if_true, hg1, epure_eq]
  -- hasS d p = .ok true: the call is a pure get
  · rw [hunf d, hb] at h
    simp only [ebind_ok, if_true] at h
    rcases hg : getS d p .null with e | r0
    · rw [hg] at h
      exact absurd h (by simp)
    rw [hg] at h
    simp only [ebind_ok, epure_eq, Except.ok.injEq, Prod.mk.injEq] at h
    have h1 : r0 = r := h.1
    have h2 : d = d1 := h.2
    have hb1 : hasS d1 p = .ok true := by
      rw [← h2]
      exact hb
    have hgd : getS d p .null = .ok r := by
      rw [hg, h1]
    have hg1 : getS d1 p .null = .ok r := by
      rw [← h2]
      exact hgd
    refine ⟨?_, hb1, hg1, fun hf => by simp at hf,
      fun _ => ⟨by rw [h1], h2.symm⟩⟩
    simp only [hunf d1, hb1, ebind_ok, if_true, hg1, epure_eq]

/-- Witness for `claim8_amended`: ensuring the fresh path `a` in `{}` with
fallback `5`. -/
theorem claim8_witness :
    ensureS (.obj [("a", .num 5)]) "a" (.num 5)
      = .ok (.num 5, .obj [("a", .num 5)])
    ∧ hasS (.obj [("a", .num 5)]) "a" = .ok true := by
  have h := claim8_amended (.obj []) "a" (.num 5) (.num 5)
    (.obj [("a", .num 5)]) rfl (by simp) rfl
  exact ⟨h.1, h.2.1⟩

/-- A key on which the round-trip can work: non-empty, free of the path
delimiters `.`/`[`/`]`, and not consumable by `parseInt` (so `set` recreates
a map for it and `getPathString` renders it in dot form). -/
def plainKeyB (k : String) : Bool :=
  !k.data.isEmpty && k.data.all (fun c => !isPathDelim c) && jsParseIntNaN k

mutual
/-- Map-only structures on which `flatten`/`hierarchize` round-trip: scalar
or `undefined` leaves (`null` leaves are silently dropped by `walk`), and
non-empty objects with pairwise distinct plain keys. -/
def goodB : JSVal → Bool
  | .obj fields => !fields.isEmpty && goodFieldsB fields
  | .null => false
  | .arr _ _ => false
  | _ => true

/-- Field lists of a good object: plain distinct keys, good values. -/
def goodFieldsB : List (String × JSVal) → Bool
  | [] => true
  | (k, v) :: rest =>
      plainKeyB k && goodB v && !(jsFindProp rest k).isSome && goodFieldsB rest
end

/-- A good root for the round-trip: the empty object, or a good object. -/
def goodRootB : JSVal → Bool
  | .obj [] => true
  | .obj fields => goodB (.obj fields)
  | _ => false

mutual
/-- The leaves of a good, map-only structure in document order, each with
its segment path — the specification-side mirror of what `walk` emits. -/
def leavesF : List (String × JSVal) → List (List String × JSVal)
  | [] => []
  | (k, v) :: rest => entryLeaves k v ++ leavesF rest

/-- Leaves contributed by one field: descend into objects, emit anything
else. -/
def entryLeaves (k : String) (v : JSVal) : List (List String × JSVal) :=
  match v with
  | .obj gf => (leavesF gf).map (fun pv => (k :: pv.1, pv.2))
  | w => [([k], w)]
end

/-- Character-level dotted join of segment contents, the shape of a plain
path string produced by `getPathString`. -/
def dotJoin : List (List Char) → List Char
  | [] => []
  | [r] => r
  | r :: rest => r ++ '.' :: dotJoin rest

theorem joinAll_data (l : List String) :
    (joinAll l).data = (l.map String.data).flatten := by
  induction l with
  | nil => rfl
  | cons s rest ih => simp [joinAll, String.data_append, ih]

theorem string_mk_data (s : String) : String.mk s.data = s := rfl

theorem splitOnPred_nodelim (p : Char → Bool) (r : List Char)
    (h : ∀ c ∈ r, p c = false) : splitOnPred p r = [r] := by
  induction r with
  | nil => rfl
  | cons c rest ih =>
      rw [show splitOnPred p (c :: rest)
        = if p c then [] :: splitOnPred p rest
          else match splitOnPred p rest with
            | [] => [[c]]
            | run :: runs => (c :: run) :: runs from by rw [splitOnPred]]
      rw [h c (by simp), if_neg (by simp)]
      rw [ih (fun x hx => h x (by simp [hx]))]

theorem splitOnPred_append_delim (p : Char → Bool) (r : List Char) (d : Char)
    (tail : List Char) (hr : ∀ c ∈ r, p c = false) (hd : p d = true) :
    splitOnPred p (r ++ d :: tail) = r :: splitOnPred p tail := by
  induction r with
  | nil =>
      rw [show ([] : List Char) ++ d :: tail = d :: tail from rfl]
      rw [show splitOnPred p (d :: tail)
        = if p d then [] :: splitOnPred p tail
          else match splitOnPred p tail with
            | [] => [[d]]
            | run :: runs => (d :: run) :: runs from by rw [splitOnPred]]
      rw [hd, if_pos rfl]
  | cons c rest ih =>
      rw [show (c :: rest) ++ d :: tail = c :: (rest ++ d :: tail) from rfl]
      rw [show splitOnPred p (c :: (rest ++ d :: tail))
        = if p c then [] :: splitOnPred p (rest ++ d :: tail)
          else match splitOnPred p (rest ++ d :: tail) with
            | [] => [[c]]
            | run :: runs => (c :: run) :: runs from by rw [splitOnPred]]
      rw [hr c (by simp), if_neg (by simp)]
      rw [ih (fun x hx => hr x (by simp [hx]))]

theorem splitOnPred_dotJoin (runs : List (List Char)) (hne : runs ≠ [])
    (h : ∀ r ∈ runs, (∀ c ∈ r, isPathDelim c = false)) :
    splitOnPred isPathDelim (dotJoin runs) = runs := by
  induction runs with
  | nil => exact absurd rfl hne
  | cons r rest ih =>
      cases rest with
      | nil =>
          rw [show dotJoin [r] = r from rfl]
          exact splitOnPred_nodelim _ r (h r (by simp))
      | cons r2 rest2 =>
          rw [show dotJoin (r :: r2 :: rest2) = r ++ '.' :: dotJoin (r2 :: rest2)
            from by rw [dotJoin]; simp]
          rw [splitOnPred_append_delim _ r '.' _ (h r (by simp)) (by rfl)]
          rw [ih (by simp) (fun x hx => h x (by simp [hx]))]

theorem plainKeyB_parts {k : String} (h : plainKeyB k = true) :
    k.data ≠ [] ∧ (∀ c ∈ k.data, isPathDelim c = false) ∧ jsParseIntNaN k = true := by
  simp only [plainKeyB, Bool.and_eq_true, Bool.not_eq_true', List.all_eq_true] at h
  refine ⟨?_, fun c hc => by simpa using h.1.2 c hc, h.2⟩
  intro habs
  rw [habs] at h
  simp at h

theorem pathPiece_plain {k : String} (h : jsParseIntNaN k = true) :
    pathPiece k = "." ++ k := by
  simp [pathPiece, h]

theorem joinPieces_data : ∀ (segs : List String), segs ≠ [] →
    (∀ k ∈ segs, jsParseIntNaN k = true) →
    (joinAll (segs.map pathPiece)).data = '.' :: dotJoin (segs.map String.data) := by
  intro segs
  induction segs with
  | nil => intro h _; exact absurd rfl h
  | cons k rest ih =>
      intro _ hp
      rw [show (k :: rest).map pathPiece = pathPiece k :: rest.map pathPiece from rfl]
      rw [show joinAll (pathPiece k :: rest.map pathPiece)
        = pathPiece k ++ joinAll (rest.map pathPiece) from by rw [joinAll]]
      rw [String.data_append, pathPiece_plain (hp k (by simp))]
      cases rest with
      | nil => simp [joinAll, dotJoin, String.data_append]
      | cons k2 rest2 =>
          rw [ih (by simp) (fun x hx => hp x (by simp [hx]))]
          rw [show (k :: k2 :: rest2).map String.data
            = k.data :: (k2 :: rest2).map String.data from rfl]
          rw [show dotJoin (k.data :: (k2 :: rest2).map String.data)
            = k.data ++ '.' :: dotJoin ((k2 :: rest2).map String.data) from by
              rw [dotJoin]; simp]
          simp [String.data_append]

theorem getPathString_data (segs : List String) (hne : segs ≠ [])
    (h : ∀ k ∈ segs, plainKeyB k = true) :
    (getPathString segs).data = dotJoin (segs.map String.data) := by
  unfold getPathString jsSubstringFrom1
  rw [show (String.mk ((joinAll (segs.map pathPiece)).data.drop 1)).data
    = (joinAll (segs.map pathPiece)).data.drop 1 from rfl]
  rw [joinPieces_data segs hne (fun k hk => (plainKeyB_parts (h k hk)).2.2)]
  rfl

theorem jsMatchSegs_pathString (segs : List String) (hne : segs ≠ [])
    (h : ∀ k ∈ segs, plainKeyB k = true) :
    jsMatchSegs (getPathString segs) = some segs := by
  unfold jsMatchSegs
  rw [getPathString_data segs hne h]
  rw [splitOnPred_dotJoin (segs.map String.data) (by simpa using hne)
    (by
      intro r hr c hc
      obtain ⟨k, hk, rfl⟩ := List.mem_map.mp hr
      exact (plainKeyB_parts (h k hk)).2.1 c hc)]
  rw [List.filter_eq_self.mpr (by
    intro r hr
    obtain ⟨k, hk, rfl⟩ := List.mem_map.mp hr
    simpa using (plainKeyB_parts (h k hk)).1)]
  rw [if_neg (by
    intro habs
    rw [List.isEmpty_eq_true] at habs
    exact hne (by simpa using habs))]
  rw [List.map_map]
  rw [show (String.mk ∘ String.data) = id from funext (fun s => string_mk_data s)]
  simp

theorem isCanonIdx_digits {k : String} {n : Nat} (h : isCanonIdx k = some n) :
    nonNegIntStr k = true := by
  unfold isCanonIdx at h
  cases hd : k.data with
  | nil => rw [hd] at h; simp at h
  | cons c r =>
      rw [hd] at h
      simp only [nonNegIntStr, hd]
      split at h
      · simp at h
      · rename_i x c2 r2 heq
        rw [List.cons.injEq] at heq
        obtain ⟨h1, h2⟩ := heq
        subst h1
        subst h2
        split at h
        · rename_i hcond
          simp only [Bool.and_eq_true, List.all_eq_true] at hcond
          simp only [List.isEmpty_cons, Bool.not_false, Bool.true_and,
            List.all_eq_true]
          exact hcond.1.1
        · simp at h

theorem plain_not_canon {k : String} (h : plainKeyB k = true) :
    isCanonIdx k = none := by
  cases hc : isCanonIdx k with
  | none => rfl
  | some n =>
      have := digits_not_parseIntNaN k (isCanonIdx_digits hc)
      rw [(plainKeyB_parts h).2.2] at this
      simp at this

theorem dotJoin_head (d : List Char) (ds : List (List Char)) :
    ∃ t, dotJoin (d :: ds) = d ++ t := by
  cases ds with
  | nil => exact ⟨[], by simp [dotJoin]⟩
  | cons d2 ds2 => exact ⟨'.' :: dotJoin (d2 :: ds2), by rw [dotJoin]; simp⟩

theorem pathString_not_canon (segs : List String) (hne : segs ≠ [])
    (h : ∀ k ∈ segs, plainKeyB k = true) :
    isCanonIdx (getPathString segs) = none := by
  cases hc : isCanonIdx (getPathString segs) with
  | none => rfl
  | some n =>
      exfalso
      have hdig := isCanonIdx_digits hc
      simp only [nonNegIntStr, Bool.and_eq_true, List.all_eq_true] at hdig
      cases segs with
      | nil => exact absurd rfl hne
      | cons k rest =>
          have hk := h k (by simp)
          have hdata := getPathString_data (k :: rest) hne h
          obtain ⟨t, ht⟩ := dotJoin_head k.data (rest.map String.data)
          have hkd : ∀ c ∈ k.data, c.isDigit = true := by
            intro c hcm
            apply hdig.2
            rw [hdata]
            rw [show (k :: rest).map String.data = k.data :: rest.map String.data
              from rfl, ht]
            simp [hcm]
          have hnn : nonNegIntStr k = true := by
            simp only [nonNegIntStr, Bool.and_eq_true, List.all_eq_true]
            refine ⟨?_, hkd⟩
            simp only [Bool.not_eq_true']
            cases hkdata : k.data with
            | nil => exact absurd hkdata (plainKeyB_parts hk).1
            | cons c r => simp
          have := digits_not_parseIntNaN k hnn
          rw [(plainKeyB_parts hk).2.2] at this
          simp at this

theorem goodFieldsB_cons {k : String} {v : JSVal} {rest : List (String × JSVal)}
    (h : goodFieldsB ((k, v) :: rest) = true) :
    plainKeyB k = true ∧ goodB v = true ∧ jsFindProp rest k = none
      ∧ goodFieldsB rest = true := by
  rw [show goodFieldsB ((k, v) :: rest)
    = (plainKeyB k && goodB v && !(jsFindProp rest k).isSome && goodFieldsB rest)
    from by simp [goodFieldsB]] at h
  simp only [Bool.and_eq_true, Bool.not_eq_true'] at h
  exact ⟨h.1.1.1, h.1.1.2, Option.not_isSome_iff_eq_none.mp (by simp [h.1.2]), h.2⟩

theorem goodB_obj {fields : List (String × JSVal)}
    (h : goodB (.obj fields) = true) :
    fields ≠ [] ∧ goodFieldsB fields = true := by
  rw [show goodB (.obj fields) = (!fields.isEmpty && goodFieldsB fields)
    from by simp [goodB]] at h
  simp only [Bool.and_eq_true, Bool.not_eq_true'] at h
  exact ⟨by simpa using h.1, h.2⟩

theorem goodFieldsB_mem : ∀ (l : List (String × JSVal)),
    goodFieldsB l = true → ∀ kv ∈ l, plainKeyB kv.1 = true ∧ goodB kv.2 = true := by
  intro l
  induction l with
  | nil => intro _ kv hm; simp at hm
  | cons kv0 rest ih =>
      obtain ⟨k, v⟩ := kv0
      intro h kv hm
      obtain ⟨h1, h2, _, h4⟩ := goodFieldsB_cons h
      rcases List.mem_cons.mp hm with rfl | hm2
      · exact ⟨h1, h2⟩
      · exact ih h4 kv hm2

theorem findProp_none_key_ne {l : List (String × JSVal)} {k k1 : String}
    {v1 : JSVal} (h : jsFindProp l k = none) (hm : (k1, v1) ∈ l) : k1 ≠ k := by
  induction l with
  | nil => simp at hm
  | cons kv rest ih =>
      obtain ⟨k2, v2⟩ := kv
      by_cases he : k2 = k
      · simp [jsFindProp, he] at h
      · simp only [jsFindProp, he, if_false] at h
        rcases List.mem_cons.mp hm with heq | hm2
        · rw [Prod.mk.injEq] at heq
          rw [heq.1]
          exact he
        · exact ih h hm2

theorem leavesF_paths : ∀ (l : List (String × JSVal)),
    goodFieldsB l = true → ∀ pv ∈ leavesF l,
    pv.1 ≠ [] ∧ (∀ x ∈ pv.1, plainKeyB x = true)
      ∧ (∃ k1, pv.1.head? = some k1 ∧ jsFindProp l k1 ≠ none) := by
  apply measureInd sizeOf
    (fun l => goodFieldsB l = true → ∀ pv ∈ leavesF l,
      pv.1 ≠ [] ∧ (∀ x ∈ pv.1, plainKeyB x = true)
        ∧ (∃ k1, pv.1.head? = some k1 ∧ jsFindProp l k1 ≠ none))
  intro l IH hg pv hm
  cases l with
  | nil => simp [leavesF] at hm
  | cons kv rest =>
      obtain ⟨k, v⟩ := kv
      obtain ⟨h1, h2, h3, h4⟩ := goodFieldsB_cons hg
      rw [show leavesF ((k, v) :: rest) = entryLeaves k v ++ leavesF rest
        from by rw [leavesF]] at hm
      rcases List.mem_append.mp hm with hA | hB
      · cases v with
        | obj gf =>
            rw [show entryLeaves k (.obj gf)
              = (leavesF gf).map (fun pv => (k :: pv.1, pv.2)) from by
                rw [entryLeaves]] at hA
            obtain ⟨q, hq, rfl⟩ := List.mem_map.mp hA
            have hrec := IH gf (by
                have : sizeOf (JSVal.obj gf) < sizeOf ((k, .obj gf) :: rest) := by
                  simp
                  omega
                simp at this ⊢
                omega)
              (goodB_obj h2).2 q hq
            refine ⟨by simp, ?_, ⟨k, by simp, by simp [jsFindProp]⟩⟩
            intro x hx
            rcases List.mem_cons.mp hx with rfl | hx2
            · exact h1
            · exact hrec.2.1 x hx2
        | null => simp [goodB] at h2
        | arr elems props => simp [goodB] at h2
        | undef =>
            rw [show entryLeaves k .undef = [([k], .undef)] from by rw [entryLeaves]; simp] at hA
            rw [List.mem_singleton.mp hA]
            exact ⟨by simp, by simpa using h1, ⟨k, rfl, by simp [jsFindProp]⟩⟩
        | bool b =>
            rw [show entryLeaves k (.bool b) = [([k], .bool b)] from by rw [entryLeaves]; simp] at hA
            rw [List.mem_singleton.mp hA]
            exact ⟨by simp, by simpa using h1, ⟨k, rfl, by simp [jsFindProp]⟩⟩
        | num n =>
            rw [show entryLeaves k (.num n) = [([k], .num n)] from by rw [entryLeaves]; simp] at hA
            rw [List.mem_singleton.mp hA]
            exact ⟨by simp, by simpa using h1, ⟨k, rfl, by simp [jsFindProp]⟩⟩
        | str t =>
            rw [show entryLeaves k (.str t) = [([k], .str t)] from by rw [entryLeaves]; simp] at hA
            rw [List.mem_singleton.mp hA]
            exact ⟨by simp, by simpa using h1, ⟨k, rfl, by simp [jsFindProp]⟩⟩
      · have hrec := IH rest (by simp; try omega) h4 pv hB
        obtain ⟨hp1, hp2, k1, hk1, hk2⟩ := hrec
        refine ⟨hp1, hp2, ⟨k1, hk1, ?_⟩⟩
        simp only [jsFindProp]
        by_cases he : k = k1
        · simp [he]
        · simp only [he, if_false]
          exact hk2

theorem leavesF_ne_nil : ∀ (l : List (String × JSVal)), l ≠ [] →
    goodFieldsB l = true → leavesF l ≠ [] := by
  apply measureInd sizeOf
    (fun l => l ≠ [] → goodFieldsB l = true → leavesF l ≠ [])
  intro l IH hne hg
  cases l with
  | nil => exact absurd rfl hne
  | cons kv rest =>
      obtain ⟨k, v⟩ := kv
      obtain ⟨h1, h2, h3, h4⟩ := goodFieldsB_cons hg
      rw [show leavesF ((k, v) :: rest) = entryLeaves k v ++ leavesF rest
        from by rw [leavesF]]
      simp only [ne_eq, List.append_eq_nil, not_and]
      intro hA
      exfalso
      cases v with
      | obj gf =>
          rw [show entryLeaves k (.obj gf)
            = (leavesF gf).map (fun pv => (k :: pv.1, pv.2)) from by
              rw [entryLeaves]] at hA
          have hgf := goodB_obj h2
          exact IH gf (by simp; try omega) hgf.1 hgf.2 (by simpa using hA)
      | null => simp [goodB] at h2
      | arr elems props => simp [goodB] at h2
      | undef => simp [show entryLeaves k .undef = [([k], .undef)] from by
          rw [entryLeaves]; simp] at hA
      | bool b => simp [show entryLeaves k (.bool b) = [([k], .bool b)] from by
          rw [entryLeaves]; simp] at hA
      | num n => simp [show entryLeaves k (.num n) = [([k], .num n)] from by
          rw [entryLeaves]; simp] at hA
      | str t => simp [show entryLeaves k (.str t) = [([k], .str t)] from by
          rw [entryLeaves]; simp] at hA

theorem leavesF_nodup : ∀ (l : List (String × JSVal)),
    goodFieldsB l = true → ((leavesF l).map Prod.fst).Nodup := by
  apply measureInd sizeOf
    (fun l => goodFieldsB l = true → ((leavesF l).map Prod.fst).Nodup)
  intro l IH hg
  cases l with
  | nil => simp [leavesF]
  | cons kv rest =>
      obtain ⟨k, v⟩ := kv
      obtain ⟨h1, h2, h3, h4⟩ := goodFieldsB_cons hg
      rw [show leavesF ((k, v) :: rest) = entryLeaves k v ++ leavesF rest
        from by rw [leavesF]]
      rw [List.map_append, List.nodup_append]
      have hheadA : ∀ p ∈ (entryLeaves k v).map Prod.fst, p.head? = some k := by
        intro p hp
        obtain ⟨pv, hpv, rfl⟩ := List.mem_map.mp hp
        cases v with
        | obj gf =>
            rw [show entryLeaves k (.obj gf)
              = (leavesF gf).map (fun pv => (k :: pv.1, pv.2)) from by
                rw [entryLeaves]] at hpv
            obtain ⟨q, _, rfl⟩ := List.mem_map.mp hpv
            rfl
        | null => simp [goodB] at h2
        | arr elems props => simp [goodB] at h2
        | undef =>
            rw [show entryLeaves k .undef = [([k], .undef)] from by
              rw [entryLeaves]; simp] at hpv
            rw [List.mem_singleton.mp hpv]; rfl
        | bool b =>
            rw [show entryLeaves k (.bool b) = [([k], .bool b)] from by
              rw [entryLeaves]; simp] at hpv
            rw [List.mem_singleton.mp hpv]; rfl
        | num n =>
            rw [show entryLeaves k (.num n) = [([k], .num n)] from by
              rw [entryLeaves]; simp] at hpv
            rw [List.mem_singleton.mp hpv]; rfl
        | str t =>
            rw [show entryLeaves k (.str t) = [([k], .str t)] from by
              rw [entryLeaves]; simp] at hpv
            rw [List.mem_singleton.mp hpv]; rfl
      have hheadB : ∀ p ∈ (leavesF rest).map Prod.fst, p.head? ≠ some k := by
        intro p hp
        obtain ⟨pv, hpv, rfl⟩ := List.mem_map.mp hp
        obtain ⟨_, _, k1, hk1, hk2⟩ := leavesF_paths rest h4 pv hpv
        rw [hk1]
        intro habs
        rw [Option.some.injEq] at habs
        rw [habs] at hk2
        exact hk2 h3
      refine ⟨?_, IH rest (by simp; try omega) h4, ?_⟩
      · cases v with
        | obj gf =>
            rw [show entryLeaves k (.obj gf)
              = (leavesF gf).map (fun pv => (k :: pv.1, pv.2)) from by
                rw [entryLeaves]]
            rw [List.map_map]
            have : (Prod.fst ∘ fun pv : List String × JSVal => (k :: pv.1, pv.2))
                = (fun pv : List String × JSVal => k :: pv.1) := rfl
            rw [this]
            have hinj := IH gf (by simp; try omega) (goodB_obj h2).2
            have : (fun pv : List String × JSVal => k :: pv.1)
                = (List.cons k) ∘ Prod.fst := rfl
            rw [this, ← List.map_map]
            exact hinj.map (fun a b hab => by simpa using hab)
        | null => simp [goodB] at h2
        | arr elems props => simp [goodB] at h2
        | undef => simp [show entryLeaves k .undef = [([k], .undef)] from by
            rw [entryLeaves]; simp]
        | bool b => simp [show entryLeaves k (.bool b) = [([k], .bool b)] from by
            rw [entryLeaves]; simp]
        | num n => simp [show entryLeaves k (.num n) = [([k], .num n)] from by
            rw [entryLeaves]; simp]
        | str t => simp [show entryLeaves k (.str t) = [([k], .str t)] from by
            rw [entryLeaves]; simp]
      · intro p hpA hpB
        exact hheadB p hpB (hheadA p hpA)

theorem jsObjOrder_plain (fields : List (String × JSVal))
    (h : ∀ kv ∈ fields, isCanonIdx kv.1 = none) :
    jsObjOrder fields = fields := by
  unfold jsObjOrder
  have h1 : ∀ (l : List (String × JSVal)), (∀ kv ∈ l, isCanonIdx kv.1 = none) →
      l.filter (fun kv => (isCanonIdx kv.1).isSome) = [] := by
    intro l
    induction l with
    | nil => intro _; rfl
    | cons kv rest ih =>
        intro hl
        rw [List.filter_cons]
        simp only [hl kv (by simp), Option.isSome_none, if_false]
        exact ih (fun kv2 hkv2 => hl kv2 (by simp [hkv2]))
  have h2 : ∀ (l : List (String × JSVal)), (∀ kv ∈ l, isCanonIdx kv.1 = none) →
      l.filter (fun kv => !(isCanonIdx kv.1).isSome) = l := by
    intro l
    induction l with
    | nil => intro _; rfl
    | cons kv rest ih =>
        intro hl
        rw [List.filter_cons]
        simp only [hl kv (by simp), Option.isSome_none, Bool.not_false, if_true,
          List.cons.injEq, true_and]
        exact ih (fun kv2 hkv2 => hl kv2 (by simp [hkv2]))
  rw [h1 fields h, h2 fields h]
  rfl

theorem walkFields_good : ∀ (l : List (String × JSVal)),
    goodFieldsB l = true → ∀ (path : List String),
    walkFields false l path = (leavesF l).map (fun pv => (path ++ pv.1, pv.2)) := by
  apply measureInd sizeOf (fun l => goodFieldsB l = true → ∀ path,
    walkFields false l path = (leavesF l).map (fun pv => (path ++ pv.1, pv.2)))
  intro l IH hg path
  cases l with
  | nil =>
      rw [show walkFields false [] path = [] from by rw [walkFields]]
      rw [show leavesF [] = [] from by rw [leavesF]]
      rfl
  | cons kv rest =>
      obtain ⟨k, v⟩ := kv
      obtain ⟨h1, h2, h3, h4⟩ := goodFieldsB_cons hg
      rw [show walkFields false ((k, v) :: rest) path
        = walkEntry false k v path ++ walkFields false rest path from by
          rw [walkFields]]
      rw [show leavesF ((k, v) :: rest) = entryLeaves k v ++ leavesF rest
        from by rw [leavesF]]
      rw [List.map_append]
      rw [IH rest (by simp; try omega) h4 path]
      congr 1
      cases v with
      | obj gf =>
          have hgf := goodB_obj h2
          rw [show walkEntry false k (.obj gf) path
            = walkV false (.obj gf) (path ++ [k]) from by
              rw [walkEntry]; simp [isObjectType, isArrB]]
          rw [show walkV false (.obj gf) (path ++ [k])
            = walkFields false (jsObjOrder gf) (path ++ [k]) from by rw [walkV]]
          rw [jsObjOrder_plain gf
            (fun kv hkv => plain_not_canon ((goodFieldsB_mem gf hgf.2 kv hkv).1))]
          rw [IH gf (by simp; try omega) hgf.2 (path ++ [k])]
          rw [show entryLeaves k (.obj gf)
            = (leavesF gf).map (fun pv => (k :: pv.1, pv.2)) from by
              rw [entryLeaves]]
          rw [List.map_map]
          congr 1
          funext pv
          simp
      | null => simp [goodB] at h2
      | arr elems props => simp [goodB] at h2
      | undef =>
          rw [show walkEntry false k .undef path = [(path ++ [k], .undef)] from by
            rw [walkEntry]; simp [isObjectType, isArrB]]
          rw [show entryLeaves k .undef = [([k], .undef)] from by
            rw [entryLeaves]; simp]
          simp
      | bool b =>
          rw [show walkEntry false k (.bool b) path = [(path ++ [k], .bool b)]
            from by rw [walkEntry]; simp [isObjectType, isArrB]]
          rw [show entryLeaves k (.bool b) = [([k], .bool b)] from by
            rw [entryLeaves]; simp]
          simp
      | num n =>
          rw [show walkEntry false k (.num n) path = [(path ++ [k], .num n)]
            from by rw [walkEntry]; simp [isObjectType, isArrB]]
          rw [show entryLeaves k (.num n) = [([k], .num n)] from by
            rw [entryLeaves]; simp]
          simp
      | str t =>
          rw [show walkEntry false k (.str t) path = [(path ++ [k], .str t)]
            from by rw [walkEntry]; simp [isObjectType, isArrB]]
          rw [show entryLeaves k (.str t) = [([k], .str t)] from by
            rw [entryLeaves]; simp]
          simp

theorem walkV_good (fields : List (String × JSVal)) (path : List String)
    (h : goodFieldsB fields = true) :
    walkV false (.obj fields) path
      = (leavesF fields).map (fun pv => (path ++ pv.1, pv.2)) := by
  rw [show walkV false (.obj fields) path
    = walkFields false (jsObjOrder fields) path from by rw [walkV]]
  rw [jsObjOrder_plain fields
    (fun kv hkv => plain_not_canon ((goodFieldsB_mem fields h kv hkv).1))]
  exact walkFields_good fields h path

/-- The flat entries that `flatten` produces from a good field list: one
property per leaf, keyed by the leaf's path string, in walk order. -/
def flatEntries (fields : List (String × JSVal)) : List (String × JSVal) :=
  (leavesF fields).map (fun pv => (getPathString pv.1, pv.2))

theorem jsFindProp_append_none (a b : List (String × JSVal)) (k : String)
    (ha : jsFindProp a k = none) (hb : jsFindProp b k = none) :
    jsFindProp (a ++ b) k = none := by
  induction a with
  | nil => simpa using hb
  | cons kv rest ih =>
      obtain ⟨k1, v⟩ := kv
      by_cases he : k1 = k
      · simp [jsFindProp, he] at ha
      · simp only [jsFindProp, he, if_false] at ha
        simp only [List.cons_append, jsFindProp, he, if_false]
        exact ih ha

theorem foldSetProp_fresh : ∀ (entries : List (String × JSVal)),
    ∀ (acc : List (String × JSVal)),
    (∀ k ∈ entries.map Prod.fst, jsFindProp acc k = none) →
    (entries.map Prod.fst).Nodup →
    entries.foldl (fun a kv => jsSetProp a kv.1 kv.2) acc = acc ++ entries := by
  intro entries
  induction entries with
  | nil => intro acc _ _; simp
  | cons kv rest ih =>
      intro acc hfresh hnodup
      obtain ⟨k, v⟩ := kv
      rw [List.foldl_cons]
      have hset : jsSetProp acc k v = acc ++ [(k, v)] :=
        jsSetProp_absent acc k v (hfresh k (by simp))
      rw [show jsSetProp acc (k, v).1 (k, v).2 = acc ++ [(k, v)] from hset]
      have hfresh2 : ∀ k1 ∈ rest.map Prod.fst,
          jsFindProp (acc ++ [(k, v)]) k1 = none := by
        intro k1 hk1
        apply jsFindProp_append_none
        · exact hfresh k1 (by simp [hk1])
        · have hne : k1 ≠ k := by
            intro he
            subst he
            rw [List.map_cons] at hnodup
            exact (List.nodup_cons.mp hnodup).1 hk1
          simp [jsFindProp, Ne.symm hne]
      have hnd2 : (rest.map Prod.fst).Nodup := by
        rw [List.map_cons] at hnodup
        exact (List.nodup_cons.mp hnodup).2
      rw [ih (acc ++ [(k, v)]) hfresh2 hnd2]
      simp

theorem flatKeys_nodup (fields : List (String × JSVal))
    (h : goodFieldsB fields = true) :
    ((leavesF fields).map (fun pv => getPathString pv.1)).Nodup := by
  have h1 := leavesF_nodup fields h
  rw [show (leavesF fields).map (fun pv => getPathString pv.1)
    = ((leavesF fields).map Prod.fst).map getPathString from by
      rw [List.map_map]; rfl]
  apply List.Nodup.map_on ?_ h1
  intro p hp q hq heq
  obtain ⟨pv, hpv, rfl⟩ := List.mem_map.mp hp
  obtain ⟨qv, hqv, rfl⟩ := List.mem_map.mp hq
  obtain ⟨hP1, hP2, _⟩ := leavesF_paths fields h pv hpv
  obtain ⟨hQ1, hQ2, _⟩ := leavesF_paths fields h qv hqv
  have e1 := jsMatchSegs_pathString pv.1 hP1 hP2
  have e2 := jsMatchSegs_pathString qv.1 hQ1 hQ2
  rw [heq, e2] at e1
  exact ((Option.some.injEq _ _).mp e1).symm

theorem flattenV_good (fields : List (String × JSVal))
    (h : goodFieldsB fields = true) :
    flattenV (.obj fields) = .obj (flatEntries fields) := by
  have hnd : ((flatEntries fields).map Prod.fst).Nodup := by
    unfold flatEntries
    rw [List.map_map]
    exact flatKeys_nodup fields h
  have hfold := foldSetProp_fresh (flatEntries fields) []
    (fun k _ => rfl) hnd
  unfold flattenV walkCalls
  rw [walkV_good fields [] h]
  rw [List.map_map, List.foldl_map]
  unfold flatEntries at hfold
  rw [List.foldl_map] at hfold
  exact congrArg JSVal.obj hfold

theorem jsFindProp_append_last (pre : List (String × JSVal)) (k : String)
    (X : JSVal) (h : jsFindProp pre k = none) :
    jsFindProp (pre ++ [(k, X)]) k = some X := by
  induction pre with
  | nil => simp [jsFindProp]
  | cons kv rest ih =>
      obtain ⟨k1, v⟩ := kv
      by_cases he : k1 = k
      · simp [jsFindProp, he] at h
      · simp only [jsFindProp, he, if_false] at h
        simp only [List.cons_append, jsFindProp, he, if_false]
        exact ih h

theorem jsSetProp_append_last (pre : List (String × JSVal)) (k : String)
    (X Y : JSVal) (h : jsFindProp pre k = none) :
    jsSetProp (pre ++ [(k, X)]) k Y = pre ++ [(k, Y)] := by
  induction pre with
  | nil => simp [jsSetProp]
  | cons kv rest ih =>
      obtain ⟨k1, v⟩ := kv
      by_cases he : k1 = k
      · simp [jsFindProp, he] at h
      · simp only [jsFindProp, he, if_false] at h
        simp only [List.cons_append, jsSetProp, he, if_false,
          List.cons.injEq, true_and]
        exact ih h

@[simp] theorem foldlM_nil_e {α β : Type} (f : β → α → Except JSErr β) (b : β) :
    List.foldlM f b [] = pure b := rfl

@[simp] theorem foldlM_cons_e {α β : Type} (f : β → α → Except JSErr β) (b : β)
    (a : α) (l : List α) :
    List.foldlM f b (a :: l) = f b a >>= fun b2 => List.foldlM f b2 l := rfl

theorem foldlM_append_e {α β : Type} (f : β → α → Except JSErr β) (b : β)
    (l1 l2 : List α) :
    List.foldlM f b (l1 ++ l2)
      = List.foldlM f b l1 >>= fun b2 => List.foldlM f b2 l2 := by
  induction l1 generalizing b with
  | nil => simp
  | cons a l ih =>
      rw [List.cons_append, foldlM_cons_e, foldlM_cons_e]
      cases hfa : f b a with
      | error e => simp
      | ok c => simp [ih]

theorem setL_focus (pre : List (String × JSVal)) (k : String) (X : JSVal)
    (next : String) (rst : List String) (w : JSVal)
    (hfresh : jsFindProp pre k = none) :
    setL (.obj (pre ++ [(k, X)])) (k :: next :: rst) w
      = (setL X (next :: rst) w).map (fun c => .obj (pre ++ [(k, c)])) := by
  simp only [setL]
  have hin : jsInE (.obj (pre ++ [(k, X)])) k = .ok true := by
    simp [jsInE, jsFindProp_append_last pre k X hfresh]
  rw [hin, ebind_ok]
  simp only [if_true, epure_eq, ebind_ok]
  have hidx : jsIndexTotal (.obj (pre ++ [(k, X)])) k = X := by
    simp [jsIndexTotal, jsFindProp_append_last pre k X hfresh]
  rw [hidx]
  cases hres : setL X (next :: rst) w with
  | error e => simp
  | ok c =>
      simp only [ebind_ok, emap_ok]
      simp [jsWrite, jsSetProp_append_last pre k X c hfresh]

theorem setL_create (pre : List (String × JSVal)) (k : String)
    (next : String) (rst : List String) (w : JSVal)
    (hfresh : jsFindProp pre k = none) (hnan : jsParseIntNaN next = true) :
    setL (.obj pre) (k :: next :: rst) w
      = (setL (.obj []) (next :: rst) w).map (fun c => .obj (pre ++ [(k, c)])) := by
  simp only [setL]
  have hin : jsInE (.obj pre) k = .ok false := by
    simp [jsInE, hfresh]
  rw [hin, ebind_ok]
  simp only [Bool.false_eq_true, if_false, hnan, if_true]
  have hw : jsWrite (.obj pre) k (.obj []) = .ok (.obj (pre ++ [(k, .obj [])])) := by
    simp [jsWrite, jsSetProp_absent pre k (.obj []) hfresh]
  rw [hw, ebind_ok]
  have hidx : jsIndexTotal (.obj (pre ++ [(k, .obj [])])) k = .obj [] := by
    simp [jsIndexTotal, jsFindProp_append_last pre k (.obj []) hfresh]
  rw [hidx]
  cases hres : setL (.obj []) (next :: rst) w with
  | error e => simp
  | ok c =>
      simp only [ebind_ok, emap_ok]
      simp [jsWrite, jsSetProp_append_last pre k (.obj []) c hfresh]

theorem setUnder : ∀ (lv : List (List String × JSVal)),
    (∀ pv ∈ lv, pv.1 ≠ []) → ∀ (pre : List (String × JSVal)) (k : String)
    (X : JSVal), jsFindProp pre k = none →
    List.foldlM (fun acc pv => setL acc pv.1 pv.2)
        (JSVal.obj (pre ++ [(k, X)])) (lv.map (fun pv => (k :: pv.1, pv.2)))
      = (List.foldlM (fun acc pv => setL acc pv.1 pv.2) X lv).map
          (fun r => JSVal.obj (pre ++ [(k, r)])) := by
  intro lv
  induction lv with
  | nil =>
      intro _ pre k X hfresh
      simp
  | cons pv rest ih =>
      intro hne pre k X hfresh
      rw [List.map_cons, foldlM_cons_e, foldlM_cons_e]
      have hp : pv.1 ≠ [] := hne pv (by simp)
      cases hp1 : pv.1 with
      | nil => exact absurd hp1 hp
      | cons next rst =>
          rw [show ((k :: next :: rst, pv.2) : List String × JSVal).1
            = k :: next :: rst from rfl]
          rw [show ((k :: next :: rst, pv.2) : List String × JSVal).2
            = pv.2 from rfl]
          rw [setL_focus pre k X next rst pv.2 hfresh]
          cases hres : setL X (next :: rst) pv.2 with
          | error e => simp
          | ok c =>
              simp only [emap_ok, ebind_ok]
              exact ih (fun q hq => hne q (by simp [hq])) pre k c hfresh

theorem setUnderCreate (p0 : List String) (v0 : JSVal)
    (lv : List (List String × JSVal))
    (hne0 : p0 ≠ []) (hplain0 : ∀ x ∈ p0, plainKeyB x = true)
    (hne : ∀ pv ∈ lv, pv.1 ≠ [])
    (pre : List (String × JSVal)) (k : String)
    (hfresh : jsFindProp pre k = none) :
    List.foldlM (fun acc pv => setL acc pv.1 pv.2) (JSVal.obj pre)
        (((p0, v0) :: lv).map (fun pv => (k :: pv.1, pv.2)))
      = (List.foldlM (fun acc pv => setL acc pv.1 pv.2) (JSVal.obj [])
          ((p0, v0) :: lv)).map (fun r => JSVal.obj (pre ++ [(k, r)])) := by
  cases hp0 : p0 with
  | nil => exact absurd hp0 hne0
  | cons next rst =>
      subst hp0
      rw [List.map_cons, foldlM_cons_e, foldlM_cons_e]
      rw [show ((k :: (next :: rst, v0).1, (next :: rst, v0).2)
          : List String × JSVal).1 = k :: next :: rst from rfl]
      rw [show ((k :: (next :: rst, v0).1, (next :: rst, v0).2)
          : List String × JSVal).2 = v0 from rfl]
      have hnan : jsParseIntNaN next = true :=
        (plainKeyB_parts (hplain0 next (by simp))).2.2
      rw [setL_create pre k next rst v0 hfresh hnan]
      cases hres : setL (.obj []) (next :: rst) v0 with
      | error e => simp
      | ok c =>
          simp only [emap_ok, ebind_ok]
          exact setUnder lv hne pre k c hfresh

theorem rebuild_fields : ∀ (fields : List (String × JSVal)),
    goodFieldsB fields = true → ∀ (pre : List (String × JSVal)),
    (∀ kv ∈ fields, jsFindProp pre kv.1 = none) →
    List.foldlM (fun acc pv => setL acc pv.1 pv.2) (JSVal.obj pre)
        (leavesF fields)
      = .ok (.obj (pre ++ fields)) := by
  apply measureInd sizeOf (fun fields => goodFieldsB fields = true → ∀ pre,
    (∀ kv ∈ fields, jsFindProp pre kv.1 = none) →
    List.foldlM (fun acc pv => setL acc pv.1 pv.2) (JSVal.obj pre)
        (leavesF fields)
      = .ok (.obj (pre ++ fields)))
  intro fields IH hg pre hfresh
  cases fields with
  | nil =>
      rw [show leavesF [] = [] from by rw [leavesF]]
      simp
  | cons kv rest =>
      obtain ⟨k, v⟩ := kv
      obtain ⟨h1, h2, h3, h4⟩ := goodFieldsB_cons hg
      rw [show leavesF ((k, v) :: rest) = entryLeaves k v ++ leavesF rest
        from by rw [leavesF]]
      rw [foldlM_append_e]
      have hfk : jsFindProp pre k = none := hfresh (k, v) (by simp)
      have hstep : List.foldlM (fun acc pv => setL acc pv.1 pv.2)
          (JSVal.obj pre) (entryLeaves k v)
          = .ok (.obj (pre ++ [(k, v)])) := by
        cases v with
        | obj gf =>
            have hgf := goodB_obj h2
            rw [show entryLeaves k (.obj gf)
              = (leavesF gf).map (fun pv => (k :: pv.1, pv.2)) from by
                rw [entryLeaves]]
            have hlne := leavesF_ne_nil gf hgf.1 hgf.2
            have hpaths := leavesF_paths gf hgf.2
            cases hlv : leavesF gf with
            | nil => exact absurd hlv hlne
            | cons pv0 lv =>
                obtain ⟨q0, w0⟩ := pv0
                have hm0 : (q0, w0) ∈ leavesF gf := by rw [hlv]; simp
                obtain ⟨hq0ne, hq0plain, _⟩ := hpaths (q0, w0) hm0
                rw [setUnderCreate q0 w0 lv hq0ne hq0plain
                  (fun q hq => (hpaths q (by rw [hlv]; simp [hq])).1)
                  pre k hfk]
                rw [← hlv]
                rw [IH gf (by simp; try omega) hgf.2 [] (fun _ _ => rfl)]
                simp
        | null => simp [goodB] at h2
        | arr elems props => simp [goodB] at h2
        | undef =>
            rw [show entryLeaves k .undef = [([k], .undef)] from by
              rw [entryLeaves]; simp]
            rw [foldlM_cons_e]
            rw [show setL (JSVal.obj pre) (([k], JSVal.undef)
              : List String × JSVal).1 (([k], JSVal.undef)
              : List String × JSVal).2 = jsWrite (JSVal.obj pre) k .undef
              from by rw [setL]]
            simp [jsWrite, jsSetProp_absent pre k .undef hfk]
        | bool b =>
            rw [show entryLeaves k (.bool b) = [([k], .bool b)] from by
              rw [entryLeaves]; simp]
            rw [foldlM_cons_e]
            rw [show setL (JSVal.obj pre) (([k], JSVal.bool b)
              : List String × JSVal).1 (([k], JSVal.bool b)
              : List String × JSVal).2 = jsWrite (JSVal.obj pre) k (.bool b)
              from by rw [setL]]
            simp [jsWrite, jsSetProp_absent pre k (.bool b) hfk]
        | num n =>
            rw [show entryLeaves k (.num n) = [([k], .num n)] from by
              rw [entryLeaves]; simp]
            rw [foldlM_cons_e]
            rw [show setL (JSVal.obj pre) (([k], JSVal.num n)
              : List String × JSVal).1 (([k], JSVal.num n)
              : List String × JSVal).2 = jsWrite (JSVal.obj pre) k (.num n)
              from by rw [setL]]
            simp [jsWrite, jsSetProp_absent pre k (.num n) hfk]
        | str t =>
            rw [show entryLeaves k (.str t) = [([k], .str t)] from by
              rw [entryLeaves]; simp]
            rw [foldlM_cons_e]
            rw [show setL (JSVal.obj pre) (([k], JSVal.str t)
              : List String × JSVal).1 (([k], JSVal.str t)
              : List String × JSVal).2 = jsWrite (JSVal.obj pre) k (.str t)
              from by rw [setL]]
            simp [jsWrite, jsSetProp_absent pre k (.str t) hfk]
      rw [hstep, ebind_ok]
      have hfresh2 : ∀ kv ∈ rest, jsFindProp (pre ++ [(k, v)]) kv.1 = none := by
        intro kv hkv
        obtain ⟨k1, v1⟩ := kv
        apply jsFindProp_append_none
        · exact hfresh (k1, v1) (by simp [hkv])
        · have hne : k1 ≠ k := findProp_none_key_ne h3 hkv
          simp [jsFindProp, Ne.symm hne]
      rw [IH rest (by simp; try omega) h4 (pre ++ [(k, v)]) hfresh2]
      simp

theorem foldSetS_leaves : ∀ (lv : List (List String × JSVal)),
    (∀ pv ∈ lv, jsMatchSegs (getPathString pv.1) = some pv.1) →
    ∀ (b : JSVal),
    List.foldlM (fun acc kv => setS acc kv.1 kv.2) b
        (lv.map (fun pv => (getPathString pv.1, pv.2)))
      = List.foldlM (fun acc pv => setL acc pv.1 pv.2) b lv := by
  intro lv
  induction lv with
  | nil => intro _ b; rfl
  | cons pv rest ih =>
      intro hm b
      rw [List.map_cons, foldlM_cons_e, foldlM_cons_e]
      have h1 : setS b (getPathString pv.1) pv.2 = setL b pv.1 pv.2 := by
        unfold setS
        rw [hm pv (by simp)]
      rw [show setS b ((getPathString pv.1, pv.2) : String × JSVal).1
          ((getPathString pv.1, pv.2) : String × JSVal).2
        = setL b pv.1 pv.2 from h1]
      cases hres : setL b pv.1 pv.2 with
      | error e => simp
      | ok c =>
          simp only [ebind_ok]
          exact ih (fun q hq => hm q (by simp [hq])) c

theorem round_trip_fields (fields : List (String × JSVal))
    (h : goodFieldsB fields = true) :
    hierarchizeE (flattenV (.obj fields)) = .ok (.obj fields) := by
  have hcanon : ∀ kv ∈ flatEntries fields, isCanonIdx kv.1 = none := by
    intro kv hkv
    obtain ⟨pv, hpv, rfl⟩ := List.mem_map.mp hkv
    obtain ⟨hne2, hplain, _⟩ := leavesF_paths fields h pv hpv
    exact pathString_not_canon pv.1 hne2 hplain
  have hm : ∀ pv ∈ leavesF fields,
      jsMatchSegs (getPathString pv.1) = some pv.1 := by
    intro pv hpv
    obtain ⟨hne2, hplain, _⟩ := leavesF_paths fields h pv hpv
    exact jsMatchSegs_pathString pv.1 hne2 hplain
  rw [flattenV_good fields h]
  unfold hierarchizeE
  rw [show jsForInEntries (.obj (flatEntries fields))
    = jsObjOrder (flatEntries fields) from rfl]
  rw [jsObjOrder_plain (flatEntries fields) hcanon]
  unfold flatEntries
  rw [foldSetS_leaves (leavesF fields) hm (.obj [])]
  rw [rebuild_fields fields h [] (fun _ _ => rfl)]
  simp

/-- Claim C1 (counterexample): `{a: {}}` is a map-only nested structure, yet
`hierarchize(flatten({a: {}}))` is `{}` and not `{a: {}}` — `walk` never
invokes the callback inside an empty composite, so `flatten` drops the key
and the round trip loses it. -/
theorem claim1_counterexample :
    hierarchizeE (flattenV (JSVal.obj [("a", JSVal.obj [])]))
      = .ok (JSVal.obj [])
    ∧ JSVal.obj [] ≠ JSVal.obj [("a", JSVal.obj [])] := by
  constructor
  · have h2 : jsObjOrder [("a", JSVal.obj [])] = [("a", JSVal.obj [])] := by
      apply jsObjOrder_plain
      intro kv hkv
      rw [List.mem_singleton.mp hkv]
      decide
    have h3 : walkV false (.obj [("a", JSVal.obj [])]) []
        = walkFields false (jsObjOrder [("a", JSVal.obj [])]) [] := by
      rw [walkV]
    have h4 : walkFields false [("a", JSVal.obj [])] []
        = walkEntry false "a" (JSVal.obj []) [] ++ [] := by
      rw [walkFields]
      rw [walkFields]
    have h6 : walkEntry false "a" (JSVal.obj []) []
        = walkV false (JSVal.obj []) ["a"] := by
      rw [walkEntry]
      simp [isObjectType, isArrB]
    have h7 : walkV false (JSVal.obj []) ["a"]
        = walkFields false (jsObjOrder []) ["a"] := by rw [walkV]
    have h8 : jsObjOrder ([] : List (String × JSVal)) = [] := rfl
    have h9 : walkFields false ([] : List (String × JSVal)) ["a"] = [] := by
      rw [walkFields]
    have hflat : flattenV (.obj [("a", JSVal.obj [])]) = .obj [] := by
      unfold flattenV walkCalls
      rw [h3, h2, h4, h6, h7, h8, h9]
      rfl
    rw [hflat]
    rfl
  · simp

/-- Claim C1 (amended): the round trip holds on structures that give `walk`
no chance to drop or misparse anything: every composite is a non-empty
object (no arrays, no `null`, no empty objects), and every key is a
non-empty run of non-delimiter characters on which `parseInt` fails.  For
such structures `hierarchize(flatten(s))` returns `s` exactly. -/
theorem claim1_amended (s : JSVal) (h : goodRootB s = true) :
    hierarchizeE (flattenV s) = .ok s := by
  cases s with
  | obj fields =>
      cases fields with
      | nil => exact round_trip_fields [] rfl
      | cons kv rest =>
          have hg : goodB (.obj (kv :: rest)) = true := by
            simpa [goodRootB] using h
          exact round_trip_fields (kv :: rest) (goodB_obj hg).2
  | null => simp [goodRootB] at h
  | undef => simp [goodRootB] at h
  | bool b => simp [goodRootB] at h
  | num n => simp [goodRootB] at h
  | str t => simp [goodRootB] at h
  | arr elems props => simp [goodRootB] at h

/-- Claim C1 (witness): the amended round trip at the concrete structure
`{name: {first: "Jeremy", last: "Bankes"}}`. -/
theorem claim1_witness :
    goodRootB (JSVal.obj [("name", JSVal.obj
        [("first", JSVal.str "Jeremy"), ("last", JSVal.str "Bankes")])]) = true
    ∧ hierarchizeE (flattenV (JSVal.obj [("name", JSVal.obj
        [("first", JSVal.str "Jeremy"), ("last", JSVal.str "Bankes")])]))
      = .ok (JSVal.obj [("name", JSVal.obj
        [("first", JSVal.str "Jeremy"), ("last", JSVal.str "Bankes")])]) := by
  have hg : goodRootB (JSVal.obj [("name", JSVal.obj
      [("first", JSVal.str "Jeremy"), ("last", JSVal.str "Bankes")])]) = true := by
    simp only [goodRootB, goodB, goodFieldsB, jsFindProp]
    decide
  exact ⟨hg, claim1_amended _ hg⟩
